import Mathlib

/-!
Verification of the `toolshed` backup-pruning tool (`toolshed/shears.py`).

The development shallowly embeds the `Shears` class: calendar dates and the
two `datetime.strptime` formats used by `get_backup_date`, the directory
scanner `get_directory_files`, the boundary classifier `is_end_of`, the
per-tier pruner `prune_level`, the flat pruner `prune_limit`, and the
driver `prune`.  Filesystem state is a record of directory listings; every
operation that can raise in Python (`ValueError` from `str.split` unpacking,
`AttributeError` on a `None` date, `datetime` range errors, and POSIX
`os.remove` / `shutil.rmtree` / `os.rename` failures) is modelled by
returning `none`.
-/

/-- A calendar date, as carried by the `datetime` objects in the source
(the time-of-day component is always midnight and never observed). -/
structure Date where
  year : Nat
  month : Nat
  day : Nat
deriving DecidableEq, Repr

/-- Gregorian leap-year test, as used by `datetime`. -/
def isLeap (y : Nat) : Bool := y % 4 = 0 && (y % 100 ≠ 0 || y % 400 = 0)

/-- Number of days in a month of a given year (models the `datetime`
library's calendar; the repository's own code never tabulates this). -/
def monthLength (y m : Nat) : Nat :=
  if m = 2 then (if isLeap y then 29 else 28)
  else if m = 4 || m = 6 || m = 9 || m = 11 then 30
  else 31

/-- Days in the common-year prefix before month `m` (1-based). -/
def daysBeforeMonth (m : Nat) : Nat :=
  match m with
  | 1 => 0 | 2 => 31 | 3 => 59 | 4 => 90 | 5 => 120 | 6 => 151
  | 7 => 181 | 8 => 212 | 9 => 243 | 10 => 273 | 11 => 304 | 12 => 334
  | _ => 0

/-- Proleptic-Gregorian ordinal of a date, with `0001-01-01` as day 1;
this is `datetime.toordinal`. -/
def toOrdinal (d : Date) : Nat :=
  let py := d.year - 1
  365 * py + py / 4 - py / 100 + py / 400 + daysBeforeMonth d.month +
    (if 2 < d.month && isLeap d.year then 1 else 0) + d.day

/-- Day of week in `strftime('%w')` convention: 0 = Sunday … 6 = Saturday.
Ordinal 1 (`0001-01-01`) is a Monday, so `%w` is the ordinal mod 7. -/
def weekdayW (d : Date) : Nat := toOrdinal d % 7

/-- The calendar predecessor of a date; models `datetime - timedelta(days=1)`
(which subtracts one from the internal ordinal). -/
def predDate (d : Date) : Date :=
  if 1 < d.day then ⟨d.year, d.month, d.day - 1⟩
  else if 1 < d.month then ⟨d.year, d.month - 1, monthLength d.year (d.month - 1)⟩
  else ⟨d.year - 1, 12, 31⟩

/-- Numeric value of a digit character. -/
def digitVal (c : Char) : Nat := c.toNat - 48

/-- Is `c` an ASCII digit? -/
def isDig (c : Char) : Bool := 48 ≤ c.toNat && c.toNat ≤ 57

/-- Match `%Y`: exactly four digits (the `re` pattern `\d\d\d\d` used by
Python's `_strptime`). -/
def takeYear : List Char → Option (Nat × List Char)
  | a :: b :: c :: d :: rest =>
    if isDig a && isDig b && isDig c && isDig d then
      some (digitVal a * 1000 + digitVal b * 100 + digitVal c * 10 + digitVal d, rest)
    else none
  | _ => none

/-- Candidate matches for `%m`, in the alternation order of Python's
`_strptime` pattern `1[0-2]|0[1-9]|[1-9]`: each candidate is the parsed
month value with the unconsumed remainder. -/
def monthCands (cs : List Char) : List (Nat × List Char) :=
  (match cs with
   | c1 :: c2 :: rest =>
     if c1 = '1' && ('0' ≤ c2 && c2 ≤ '2') then [(10 + digitVal c2, rest)]
     else if c1 = '0' && ('1' ≤ c2 && c2 ≤ '9') then [(digitVal c2, rest)]
     else []
   | _ => []) ++
  (match cs with
   | c1 :: rest => if '1' ≤ c1 && c1 ≤ '9' then [(digitVal c1, rest)] else []
   | _ => [])

/-- Candidate matches for `%d`, in the alternation order of Python's
`_strptime` pattern `3[01]|[12]\d|0[1-9]|[1-9]`. -/
def dayCands (cs : List Char) : List (Nat × List Char) :=
  (match cs with
   | c1 :: c2 :: rest =>
     if c1 = '3' && ('0' ≤ c2 && c2 ≤ '1') then [(30 + digitVal c2, rest)]
     else if ('1' ≤ c1 && c1 ≤ '2') && isDig c2 then [(digitVal c1 * 10 + digitVal c2, rest)]
     else if c1 = '0' && ('1' ≤ c2 && c2 ≤ '9') then [(digitVal c2, rest)]
     else []
   | _ => []) ++
  (match cs with
   | c1 :: rest => if '1' ≤ c1 && c1 ≤ '9' then [(digitVal c1, rest)] else []
   | _ => [])

/-- Calendar validation performed by the `datetime` constructor after the
regex match: `MINYEAR = 1`, and the day must fit the month.  (The month
and day patterns already bound them to 1–12 and 1–31.) -/
def validDate (y m d : Nat) : Bool := 1 ≤ y && d ≤ monthLength y m

/-- `datetime.strptime(s, '%Y-%m-%d')`: regex `\d\d\d\d-(%m)-(%d)` matched
with backtracking against the whole string, then calendar validation. -/
def strptimeDashed (s : String) : Option Date :=
  match takeYear s.data with
  | none => none
  | some (y, rest) =>
    match rest with
    | '-' :: r1 =>
      let md := (monthCands r1).findSome? fun (m, r2) =>
        match r2 with
        | '-' :: r3 =>
          (dayCands r3).findSome? fun (d, r4) =>
            if r4 = [] then some (m, d) else none
        | _ => none
      match md with
      | some (m, d) => if validDate y m d then some ⟨y, m, d⟩ else none
      | none => none
    | _ => none

/-- `datetime.strptime(s, '%Y%m%d')`: regex `\d\d\d\d(%m)(%d)` matched with
backtracking against the whole string, then calendar validation. -/
def strptimeCompact (s : String) : Option Date :=
  match takeYear s.data with
  | none => none
  | some (y, rest) =>
    let md := (monthCands rest).findSome? fun (m, r2) =>
      (dayCands r2).findSome? fun (d, r3) =>
        if r3 = [] then some (m, d) else none
    match md with
    | some (m, d) => if validDate y m d then some ⟨y, m, d⟩ else none
    | none => none

/-- Split a list at the first occurrence of `sep`, returning the parts
before and after it; `none` when `sep` does not occur.  Models
`str.split(sep, 1)` unpacked into two names (`none` is the unpacking
`ValueError` caught by the source). -/
def splitOnceAux (sep : Char) : List Char → Option (List Char × List Char)
  | [] => none
  | c :: rest =>
    if c = sep then some ([], rest)
    else match splitOnceAux sep rest with
      | some (a, b) => some (c :: a, b)
      | none => none

/-- String version of `splitOnceAux`. -/
def splitOnce (s : String) (sep : Char) : Option (String × String) :=
  match splitOnceAux sep s.data with
  | some (a, b) => some (⟨a⟩, ⟨b⟩)
  | none => none

/-- `Shears.get_backup_date`: take the part of `filename` before the first
`_` (or the whole name) and try `%Y-%m-%d`; on failure, take the part of
the *original* `filename` before the first `-` (or the whole name) and try
`%Y%m%d`; `none` when both fail. -/
def get_backup_date (filename : String) : Option Date :=
  let file_date :=
    match splitOnce filename '_' with
    | some (pre, _) => pre
    | none => filename
  match strptimeDashed file_date with
  | some d => some d
  | none =>
    let file_date :=
      match splitOnce filename '-' with
      | some (pre, _) => pre
      | none => filename
    strptimeCompact file_date

/-- One directory entry: its name and whether `os.path.isfile` holds
(`false` means a subdirectory). -/
structure Entry where
  name : String
  isFile : Bool
deriving DecidableEq, Repr

/-- `item.split('.', 1)` unpacked into `(filename, extension)`: split at
the first dot; `none` models the `ValueError` raised when the name
contains no dot. -/
def splitDot (s : String) : Option (String × String) := splitOnce s '.'

/-- Does the name contain a dot?  (`splitDot` succeeds exactly on these.) -/
def hasDot (s : String) : Bool := decide ('.' ∈ s.data)

/-- The identifier under which the scanner would keep an entry, if any:
subdirectories are kept (in folder mode) under their full name when it
resolves to a date; files are kept under the part before the first dot
when the rest equals the requested extension and the identifier resolves
to a date.  (A dotless file name is not kept here; the scanner itself
raises on it, which `scanEntries` models separately.) -/
def entryId (folders : Bool) (file_extension : String) (e : Entry) : Option String :=
  if e.isFile then
    match splitDot e.name with
    | none => none
    | some (filename, extension) =>
      if extension = file_extension && (get_backup_date filename).isSome then
        some filename
      else none
  else
    if folders && (get_backup_date e.name).isSome then some e.name else none

/-- The loop body of `Shears.get_directory_files`, before the final sort:
directory entries are skipped unless in folder mode with a dated name;
file entries are split at the first dot, skipped on extension mismatch or
undated identifier, and the whole scan raises `ValueError` (`none`) on a
file name with no dot. -/
def scanEntries (folders : Bool) (file_extension : String) :
    List Entry → Option (List String)
  | [] => some []
  | e :: rest =>
    if e.isFile then
      match splitDot e.name with
      | none => none
      | some (filename, extension) =>
        if extension = file_extension && (get_backup_date filename).isSome then
          (scanEntries folders file_extension rest).map (filename :: ·)
        else scanEntries folders file_extension rest
    else
      if folders && (get_backup_date e.name).isSome then
        (scanEntries folders file_extension rest).map (e.name :: ·)
      else scanEntries folders file_extension rest

/-- Lexicographic comparison of character lists by code point, the order
Python's `list.sort` uses on strings. -/
def lexLe : List Char → List Char → Bool
  | [], _ => true
  | _ :: _, [] => false
  | a :: as, b :: bs =>
    if a.toNat < b.toNat then true
    else if a.toNat = b.toNat then lexLe as bs
    else false

/-- String order used by `files.sort()`. -/
def strLe (a b : String) : Bool := lexLe a.data b.data

/-- Insert into a `strLe`-sorted list, keeping it sorted. -/
def insertSorted (s : String) : List String → List String
  | [] => [s]
  | t :: rest => if strLe s t then s :: t :: rest else t :: insertSorted s rest

/-- `files.sort()` on the scanned identifiers: ascending by code-point
order.  (Any comparison sort yields this same list, since the order is
total and antisymmetric.) -/
def sortStrings : List String → List String
  | [] => []
  | s :: rest => insertSorted s (sortStrings rest)

/-- `Shears.get_directory_files`: scan, then sort ascending. -/
def get_directory_files (folders : Bool) (file_extension : String)
    (entries : List Entry) : Option (List String) :=
  (scanEntries folders file_extension entries).map sortStrings

/-- The four backup levels, in the fixed order the source's `OrderedDict`
holds them (`__init__` always inserts all four). -/
inductive Level where
  | daily | weekly | monthly | yearly
deriving DecidableEq, Repr

/-- A directory the tool touches: the backup root (flat mode) or one of
the per-level subdirectories. -/
inductive Loc where
  | root
  | level (l : Level)
deriving DecidableEq, Repr

/-- The directory tree state: one listing for the backup root and one per
level subdirectory. -/
structure FS where
  root : List Entry
  daily : List Entry
  weekly : List Entry
  monthly : List Entry
  yearly : List Entry
deriving DecidableEq, Repr

/-- Listing of a level directory. -/
def FS.dir (fs : FS) : Level → List Entry
  | .daily => fs.daily
  | .weekly => fs.weekly
  | .monthly => fs.monthly
  | .yearly => fs.yearly

/-- Replace the listing of a level directory. -/
def FS.setDir (fs : FS) : Level → List Entry → FS
  | .daily, l => { fs with daily := l }
  | .weekly, l => { fs with weekly := l }
  | .monthly, l => { fs with monthly := l }
  | .yearly, l => { fs with yearly := l }

/-- Listing of any location. -/
def FS.loc (fs : FS) : Loc → List Entry
  | .root => fs.root
  | .level l => fs.dir l

/-- Replace the listing of any location. -/
def FS.setLoc (fs : FS) : Loc → List Entry → FS
  | .root, l => { fs with root := l }
  | .level lv, l => fs.setDir lv l

/-- One reported decision: the `Moving …` and `Removing …`/`Deleting …`
log lines of `prune_level` / `prune_limit` (emitted in dry runs too). -/
inductive PruneAction where
  | move (src : Level) (filename : String) (tgt : Level)
  | del (loc : Loc) (filename : String)
deriving DecidableEq, Repr

/-- The `Shears` instance state relevant to pruning: normalized extension
list, folder and dry-run flags, optional flat limit, and the per-level
limits held in `backup_levels` (always populated for all four levels). -/
structure Shears where
  file_extensions : List String
  folders : Bool
  dryrun : Bool
  limit : Option Nat
  backup_levels : Level → Nat

/-- `str.strip()`: remove leading and trailing whitespace. -/
def stripStr (s : String) : String :=
  ⟨((s.data.dropWhile (fun c => c.isWhitespace)).reverse.dropWhile
      (fun c => c.isWhitespace)).reverse⟩

/-- Extension normalization in `Shears.__init__`: strip whitespace, then
drop one leading dot; an extension that is empty after stripping raises
`IndexError` inside the `try` and is silently dropped from the list. -/
def normalizeExtensions (exts : List String) : List String :=
  exts.filterMap fun ext =>
    let ext := stripStr ext
    match ext.data with
    | [] => none
    | '.' :: rest => some ⟨rest⟩
    | _ => some ext

/-- `Shears.__init__`: normalize extensions, substitute `['']` in folder
mode when none survive, and fill the level limits with the defaults
`daily=14, weekly=6, monthly=6, yearly=6` for options not given.  Every
level is entered into `backup_levels` (the `except KeyError: continue`
in the source is unreachable because `options.get` never raises). -/
def Shears.init (file_extensions : List String) (folders dryrun : Bool)
    (limit : Option Nat)
    (daily weekly monthly yearly : Option Nat) : Shears :=
  let exts := normalizeExtensions file_extensions
  let exts := if folders && exts.isEmpty then [""] else exts
  { file_extensions := exts
    folders := folders
    dryrun := dryrun
    limit := limit
    backup_levels := fun l =>
      match l with
      | .daily => daily.getD 14
      | .weekly => weekly.getD 6
      | .monthly => monthly.getD 6
      | .yearly => yearly.getD 6 }

/-- The keys of `backup_levels`, in insertion order. -/
def levelsList : List Level := [.daily, .weekly, .monthly, .yearly]

/-- Position of a level in `levelsList` (`levels.index(level)`). -/
def levelIndex : Level → Nat
  | .daily => 0 | .weekly => 1 | .monthly => 2 | .yearly => 3

/-- `levels[level_index + 1:]`: the levels strictly after the given one. -/
def levelsAfter (l : Level) : List Level := levelsList.drop (levelIndex l + 1)

/-- The on-disk name `delete` and `move` act on: the bare identifier in
folder mode, `identifier.extension` in file mode. -/
def targetName (folders : Bool) (filename extension : String) : String :=
  if folders then filename else filename ++ "." ++ extension

/-- `Shears.delete`: compose the on-disk name (identifier plus extension in
file mode, bare identifier in folder mode), report, and unless dry-run
remove it — `shutil.rmtree` in folder mode (raising if the target is
missing or is a file), `os.remove` otherwise (raising if the target is
missing or is a directory).  Raising is `none`. -/
def Shears.delete (S : Shears) (filename extension : String) (loc : Loc)
    (fs : FS) : Option (FS × List PruneAction) :=
  let target := targetName S.folders filename extension
  let acts := [PruneAction.del loc target]
  if S.dryrun then some (fs, acts)
  else
    let entries := fs.loc loc
    match entries.find? (fun e => e.name == target) with
    | none => none
    | some ent =>
      if S.folders = !ent.isFile then
        some (fs.setLoc loc (entries.filter (fun e => e.name ≠ target)), acts)
      else none

/-- `Shears.move`: compose the on-disk name, report, and unless dry-run
`os.rename` it from `path` (the current level) to `new_path` (the target
level).  Renaming raises (`none`) if the source is missing, and on a
destination collision unless both sides are plain files (POSIX rename
overwrites an existing file). -/
def Shears.move (S : Shears) (filename extension : String) (src tgt : Level)
    (fs : FS) : Option (FS × List PruneAction) :=
  let target := targetName S.folders filename extension
  let acts := [PruneAction.move src filename tgt]
  if S.dryrun then some (fs, acts)
  else
    let srcEntries := fs.dir src
    match srcEntries.find? (fun e => e.name == target) with
    | none => none
    | some ent =>
      let fs₁ := fs.setDir src (srcEntries.filter (fun e => e.name ≠ target))
      let dstEntries := fs₁.dir tgt
      match dstEntries.find? (fun e => e.name == target) with
      | none => some (fs₁.setDir tgt (ent :: dstEntries), acts)
      | some dent =>
        if ent.isFile && dent.isFile then
          some (fs₁.setDir tgt (ent :: dstEntries.filter (fun e => e.name ≠ target)), acts)
        else none

/-- `Shears.is_end_of`: resolve the file's date (dereferencing it raises
`AttributeError` — `none` — when the name has no date), then test the
timeframe boundary: weekly is Saturday (`%w == '6'`); monthly compares to
the first day of the following month minus one day, rolling December into
January (the `datetime(year, month, 1)` call raises — `none` — when that
rolls past year 9999); yearly compares to December 31; anything else is
false. -/
def is_end_of (timeframe : Level) (filename : String) : Option Bool :=
  match get_backup_date filename with
  | none => none
  | some file_date =>
    match timeframe with
    | .weekly => some (weekdayW file_date == 6)
    | .monthly =>
      let month := file_date.month + 1
      let ym := if month = 13 then (file_date.year + 1, 1) else (file_date.year, month)
      if 9999 < ym.1 then none
      else some (file_date = predDate ⟨ym.1, ym.2, 1⟩)
    | .yearly => some (file_date = ⟨file_date.year, 12, 31⟩)
    | .daily => some false

/-- The pure content of `is_end_of`'s boundary test, for stating theorems:
which dates each timeframe accepts. -/
def boundaryB (timeframe : Level) (d : Date) : Bool :=
  match timeframe with
  | .weekly => weekdayW d == 6
  | .monthly =>
    let month := d.month + 1
    let ym := if month = 13 then (d.year + 1, 1) else (d.year, month)
    d = predDate ⟨ym.1, ym.2, 1⟩
  | .yearly => d = ⟨d.year, 12, 31⟩
  | .daily => false

/-- The body of `prune_level`'s removal loop for one overflow candidate:
walk the levels after the current one, move to the first whose
`is_end_of` holds (`break`), and delete when none matched. -/
def processCandidate (S : Shears) (extension : String) (level : Level)
    (backup_file : String) (fs : FS) :
    List Level → Option (FS × List PruneAction)
  | [] => S.delete backup_file extension (.level level) fs
  | t :: rest =>
    match is_end_of t backup_file with
    | none => none
    | some true => S.move backup_file extension level t fs
    | some false => processCandidate S extension level backup_file fs rest

/-- `prune_level`'s removal loop over all overflow candidates, threading
the filesystem state and concatenating the reported actions. -/
def processCandidates (S : Shears) (extension : String) (level : Level)
    (suffix : List Level) : List String → FS → Option (FS × List PruneAction)
  | [], fs => some (fs, [])
  | f :: rest, fs =>
    match processCandidate S extension level f fs suffix with
    | none => none
    | some (fs₁, tr₁) =>
      match processCandidates S extension level suffix rest fs₁ with
      | none => none
      | some (fs₂, tr₂) => some (fs₂, tr₁ ++ tr₂)

/-- The `while len(backup_files) > limit: remove_files.append(backup_files.pop(0))`
loop: the first `len - limit` entries of the sorted list. -/
def overflowCandidates (files : List String) (limit : Nat) : List String :=
  files.take (files.length - limit)

/-- `Shears.prune_level`: scan the level's directory, collect the overflow
candidates, and move or delete each one. -/
def prune_level (S : Shears) (file_extension : String) (level : Level)
    (fs : FS) : Option (FS × List PruneAction) :=
  match get_directory_files S.folders file_extension (fs.dir level) with
  | none => none
  | some backup_files =>
    processCandidates S file_extension level (levelsAfter level)
      (overflowCandidates backup_files (S.backup_levels level)) fs

/-- The deletion loop of `prune_limit`. -/
def deleteAll (S : Shears) (file_extension : String) :
    List String → FS → Option (FS × List PruneAction)
  | [], fs => some (fs, [])
  | f :: rest, fs =>
    match S.delete f file_extension .root fs with
    | none => none
    | some (fs₁, tr₁) =>
      match deleteAll S file_extension rest fs₁ with
      | none => none
      | some (fs₂, tr₂) => some (fs₂, tr₁ ++ tr₂)

/-- `Shears.prune_limit`: scan the backup root, collect the overflow
candidates, and delete each one (no promotion is ever attempted). -/
def prune_limit (S : Shears) (file_extension : String) (limit : Nat)
    (fs : FS) : Option (FS × List PruneAction) :=
  match get_directory_files S.folders file_extension fs.root with
  | none => none
  | some backup_files =>
    deleteAll S file_extension (overflowCandidates backup_files limit) fs

/-- The inner `for extension in self.file_extensions` loop of tiered
pruning. -/
def pruneLevelExts (S : Shears) (level : Level) :
    List String → FS → Option (FS × List PruneAction)
  | [], fs => some (fs, [])
  | e :: rest, fs =>
    match prune_level S e level fs with
    | none => none
    | some (fs₁, tr₁) =>
      match pruneLevelExts S level rest fs₁ with
      | none => none
      | some (fs₂, tr₂) => some (fs₂, tr₁ ++ tr₂)

/-- The outer `for level, details in self.backup_levels.items()` loop. -/
def pruneLevels (S : Shears) : List Level → FS → Option (FS × List PruneAction)
  | [], fs => some (fs, [])
  | l :: rest, fs =>
    match pruneLevelExts S l S.file_extensions fs with
    | none => none
    | some (fs₁, tr₁) =>
      match pruneLevels S rest fs₁ with
      | none => none
      | some (fs₂, tr₂) => some (fs₂, tr₁ ++ tr₂)

/-- The `for extension in self.file_extensions` loop of flat pruning. -/
def pruneLimitExts (S : Shears) (limit : Nat) :
    List String → FS → Option (FS × List PruneAction)
  | [], fs => some (fs, [])
  | e :: rest, fs =>
    match prune_limit S e limit fs with
    | none => none
    | some (fs₁, tr₁) =>
      match pruneLimitExts S limit rest fs₁ with
      | none => none
      | some (fs₂, tr₂) => some (fs₂, tr₁ ++ tr₂)

/-- `Shears.prune`: flat mode when a limit is configured, otherwise tiered
pruning over all four levels in order. -/
def Shears.prune (S : Shears) (fs : FS) : Option (FS × List PruneAction) :=
  match S.limit with
  | some k => pruneLimitExts S k S.file_extensions fs
  | none => pruneLevels S levelsList fs

/-- Names of the entries of a directory listing. -/
def namesOf (entries : List Entry) : List String := entries.map (fun e => e.name)

/-- A directory listing as `os.listdir` can produce it: no two entries
share a name, and (so that a scan can succeed) every file entry's name
contains a dot. -/
def wfDir (entries : List Entry) : Prop :=
  (namesOf entries).Nodup ∧ ∀ x ∈ entries, x.isFile = true → hasDot x.name = true

/-- Well-formedness of the whole tree. -/
def wfFS (fs : FS) : Prop :=
  wfDir fs.root ∧ wfDir fs.daily ∧ wfDir fs.weekly ∧ wfDir fs.monthly ∧
    wfDir fs.yearly

instance (entries : List Entry) : Decidable (wfDir entries) := by
  unfold wfDir
  infer_instance

instance (fs : FS) : Decidable (wfFS fs) := by
  unfold wfFS
  infer_instance

/-- The number of entries of a tier directory that are valid artifacts for
*some* requested extension (the count used by the spec's per-tier
capacity bound). -/
def tierValidCount (S : Shears) (fs : FS) (level : Level) : Nat :=
  ((fs.dir level).filter
    (fun x => S.file_extensions.any
      (fun e => (entryId S.folders e x).isSome))).length

/-- An empty tree. -/
def emptyFS : FS := ⟨[], [], [], [], []⟩

/-- A simple file-mode configuration with default capacities. -/
def exShears : Shears := Shears.init ["bak"] false false none none none none none

/-- File mode, daily capacity 1, other capacities default. -/
def exShearsDaily1 : Shears :=
  Shears.init ["bak"] false false none (some 1) none none none

/-- Two files in the daily tier. -/
def exFSdaily2 : FS :=
  ⟨[], [⟨"2018-01-01.bak", true⟩, ⟨"2018-01-02.bak", true⟩], [], [], []⟩

/-- Two requested extensions, every capacity 1. -/
def c2Shears : Shears :=
  Shears.init ["aa", "bb"] false false none (some 1) (some 1) (some 1) (some 1)

/-- One `aa` artifact and one `bb` artifact in the daily tier. -/
def c2FS : FS :=
  ⟨[], [⟨"2018-01-01.aa", true⟩, ⟨"2018-01-02.bb", true⟩], [], [], []⟩

/-- Every tier capacity 0, no flat limit. -/
def c3Shears : Shears :=
  Shears.init ["bak"] false false none (some 0) (some 0) (some 0) (some 0)

/-- One dated artifact (a Monday, no boundary) in the daily tier. -/
def c3FS : FS := ⟨[], [⟨"2018-01-01.bak", true⟩], [], [], []⟩

/-- Flat mode keeping 6 artifacts. -/
def c8Shears : Shears :=
  Shears.init ["bak"] false false (some 6) none none none none

/-- Ten sequentially dated artifacts in the flat backup root. -/
def c8FS : FS :=
  ⟨[⟨"2017-11-15_test_backup.bak", true⟩, ⟨"2017-11-16_test_backup.bak", true⟩,
    ⟨"2017-11-17_test_backup.bak", true⟩, ⟨"2017-11-18_test_backup.bak", true⟩,
    ⟨"2017-11-19_test_backup.bak", true⟩, ⟨"2017-11-20_test_backup.bak", true⟩,
    ⟨"2017-11-21_test_backup.bak", true⟩, ⟨"2017-11-22_test_backup.bak", true⟩,
    ⟨"2017-11-23_test_backup.bak", true⟩, ⟨"2017-11-24_test_backup.bak", true⟩],
   [], [], [], []⟩

/-- Daily and weekly capacity 0, monthly and yearly 6; dry-run variant. -/
def c9ShearsDry : Shears :=
  Shears.init ["bak"] false true none (some 0) (some 0) (some 6) (some 6)

/-- The same configuration with dry-run off. -/
def c9ShearsReal : Shears :=
  Shears.init ["bak"] false false none (some 0) (some 0) (some 6) (some 6)

/-- One artifact dated Saturday 2018-06-30 (also a month end) in daily. -/
def c9FS : FS := ⟨[], [⟨"2018-06-30_x.bak", true⟩], [], [], []⟩

/-! ### Basic facts about splitting and parsing -/

theorem splitOnceAux_eq_some {sep : Char} :
    ∀ {cs p q : List Char}, splitOnceAux sep cs = some (p, q) →
      cs = p ++ sep :: q ∧ sep ∉ p
  | [], p, q, h => by simp [splitOnceAux] at h
  | c :: rest, p, q, h => by
    by_cases hc : c = sep
    · simp [splitOnceAux, hc] at h
      obtain ⟨hp, hq⟩ := h
      subst hp; subst hq; subst hc
      simp
    · simp only [splitOnceAux, if_neg hc] at h
      cases hrec : splitOnceAux sep rest with
      | none => rw [hrec] at h; simp at h
      | some pq =>
        obtain ⟨a, b⟩ := pq
        rw [hrec] at h
        simp only [Option.some.injEq, Prod.mk.injEq] at h
        obtain ⟨hp, hq⟩ := h
        obtain ⟨hcs, hnot⟩ := splitOnceAux_eq_some hrec
        subst hp; subst hq
        refine ⟨by simp [hcs], ?_⟩
        simp only [List.mem_cons, not_or]
        exact ⟨fun hh => hc hh.symm, hnot⟩

theorem splitOnceAux_append {sep : Char} :
    ∀ {p : List Char} (q : List Char), sep ∉ p →
      splitOnceAux sep (p ++ sep :: q) = some (p, q)
  | [], q, _ => by simp [splitOnceAux]
  | c :: rest, q, h => by
    have hc : ¬c = sep := by
      intro hh
      exact h (by simp [hh])
    have hrest : sep ∉ rest := fun hh => h (by simp [hh])
    rw [List.cons_append]
    simp only [splitOnceAux, if_neg hc, splitOnceAux_append q hrest]

theorem splitOnceAux_eq_none {sep : Char} :
    ∀ {cs : List Char}, splitOnceAux sep cs = none → sep ∉ cs
  | [], _ => by simp
  | c :: rest, h => by
    by_cases hc : c = sep
    · simp [splitOnceAux, hc] at h
    · simp only [splitOnceAux, if_neg hc] at h
      cases hrec : splitOnceAux sep rest with
      | none =>
        simp only [List.mem_cons, not_or]
        exact ⟨fun hh => hc hh.symm, splitOnceAux_eq_none hrec⟩
      | some pq => rw [hrec] at h; cases pq; simp at h

theorem splitOnce_eq_some {s p q : String} {sep : Char}
    (h : splitOnce s sep = some (p, q)) :
    s.data = p.data ++ sep :: q.data ∧ sep ∉ p.data := by
  unfold splitOnce at h
  cases haux : splitOnceAux sep s.data with
  | none => rw [haux] at h; simp at h
  | some pq =>
    obtain ⟨a, b⟩ := pq
    rw [haux] at h
    simp only [Option.some.injEq, Prod.mk.injEq] at h
    obtain ⟨hp, hq⟩ := h
    obtain ⟨hs, hnot⟩ := splitOnceAux_eq_some haux
    subst hp; subst hq
    exact ⟨hs, hnot⟩

theorem splitOnce_append {p q : String} {sep : Char} (hp : sep ∉ p.data) :
    splitOnce ⟨p.data ++ sep :: q.data⟩ sep = some (p, q) := by
  unfold splitOnce
  rw [splitOnceAux_append q.data hp]

/-- The on-disk name composed by `delete`/`move` in file mode splits back
into the identifier and extension at the first dot, provided the
identifier is dot-free. -/
theorem splitDot_compose {f e : String} (hf : '.' ∉ f.data) :
    splitDot (f ++ "." ++ e) = some (f, e) := by
  have hdata : (f ++ "." ++ e).data = f.data ++ '.' :: e.data := by
    rw [String.data_append, String.data_append,
      show (".".data : List Char) = ['.'] from rfl, List.append_assoc]
    rfl
  unfold splitDot
  rw [show (f ++ "." ++ e) = (⟨f.data ++ '.' :: e.data⟩ : String) from String.ext hdata]
  exact splitOnce_append hf

/-- Identifiers kept by a scan of a directory listing, in listing order
(the pure content of `scanEntries` when it does not raise). -/
def keptIds (folders : Bool) (file_extension : String) (entries : List Entry) :
    List String :=
  entries.filterMap (entryId folders file_extension)

theorem splitDot_shape {s p q : String} (h : splitDot s = some (p, q)) :
    s = p ++ "." ++ q ∧ '.' ∉ p.data := by
  obtain ⟨hs, hnot⟩ := splitOnce_eq_some h
  refine ⟨String.ext ?_, hnot⟩
  rw [hs, String.data_append, String.data_append,
    show (".".data : List Char) = ['.'] from rfl, List.append_assoc]
  rfl


/-- What a kept *file* entry must look like. -/
theorem entryId_file_shape {folders : Bool} {e : String} {x : Entry} {f : String}
    (hx : x.isFile = true) (h : entryId folders e x = some f) :
    splitDot x.name = some (f, e) ∧ (get_backup_date f).isSome = true := by
  unfold entryId at h
  rw [hx, if_pos rfl] at h
  cases hsd : splitDot x.name with
  | none => rw [hsd] at h; exact absurd h (by simp)
  | some pq =>
    obtain ⟨fn, ext⟩ := pq
    rw [hsd] at h
    dsimp only at h
    split at h
    · next hcond =>
      simp only [Option.some.injEq] at h
      subst h
      simp only [Bool.and_eq_true, decide_eq_true_eq] at hcond
      exact ⟨by rw [hcond.1], hcond.2⟩
    · exact absurd h (by simp)

/-- What a kept *directory* entry must look like. -/
theorem entryId_dir_shape {folders : Bool} {e : String} {x : Entry} {f : String}
    (hx : x.isFile = false) (h : entryId folders e x = some f) :
    folders = true ∧ x.name = f ∧ (get_backup_date f).isSome = true := by
  unfold entryId at h
  rw [hx] at h
  simp only [Bool.false_eq_true, if_false] at h
  split at h
  · next hcond =>
    simp only [Option.some.injEq] at h
    simp only [Bool.and_eq_true] at hcond
    exact ⟨hcond.1, h, h ▸ hcond.2⟩
  · exact absurd h (by simp)

/-- A name with no dot has `splitDot = none`, and conversely. -/
theorem splitDot_none_iff {s : String} : splitDot s = none ↔ hasDot s = false := by
  unfold hasDot
  rw [decide_eq_false_iff_not]
  constructor
  · intro h
    unfold splitDot splitOnce at h
    cases haux : splitOnceAux '.' s.data with
    | none => exact splitOnceAux_eq_none haux
    | some pq => cases pq; rw [haux] at h; exact absurd h (by simp)
  · intro h
    unfold splitDot splitOnce
    cases haux : splitOnceAux '.' s.data with
    | none => rfl
    | some pq =>
      obtain ⟨a, b⟩ := pq
      obtain ⟨hs, -⟩ := splitOnceAux_eq_some haux
      exact absurd (by rw [hs]; simp : '.' ∈ s.data) h

/-- `entryId` in terms of the raw condition, file case. -/
theorem entryId_file_eq {folders : Bool} {e : String} {x : Entry}
    (hx : x.isFile = true) {fn ext : String}
    (hsd : splitDot x.name = some (fn, ext)) :
    entryId folders e x =
      if (decide (ext = e) && (get_backup_date fn).isSome) = true then some fn
      else none := by
  unfold entryId
  rw [hx, if_pos rfl, hsd]

/-- `entryId` in terms of the raw condition, directory case. -/
theorem entryId_dir_eq {folders : Bool} {e : String} {x : Entry}
    (hx : x.isFile = false) :
    entryId folders e x =
      if (folders && (get_backup_date x.name).isSome) = true then some x.name
      else none := by
  unfold entryId
  rw [hx, if_neg (by simp)]

/-- Step characterization of the scanner loop in terms of `entryId`:
a file entry with no dot raises; anything else contributes its
`entryId` (if any) before the remainder's identifiers. -/
theorem scanEntries_cons (folders : Bool) (e : String) (x : Entry)
    (rest : List Entry) :
    scanEntries folders e (x :: rest) =
      if x.isFile = true ∧ splitDot x.name = none then none
      else (scanEntries folders e rest).map (fun l =>
        match entryId folders e x with
        | some f => f :: l
        | none => l) := by
  show (if x.isFile = true then
      match splitDot x.name with
      | none => none
      | some (filename, extension) =>
        if (decide (extension = e) && (get_backup_date filename).isSome) = true then
          (scanEntries folders e rest).map (filename :: ·)
        else scanEntries folders e rest
    else
      if (folders && (get_backup_date x.name).isSome) = true then
        (scanEntries folders e rest).map (x.name :: ·)
      else scanEntries folders e rest) = _
  by_cases hx : x.isFile = true
  · rw [if_pos hx]
    cases hsd : splitDot x.name with
    | none =>
      rw [if_pos ⟨hx, rfl⟩]
    | some pq =>
      obtain ⟨fn, ext⟩ := pq
      rw [if_neg (by rintro ⟨-, hh⟩; exact absurd hh (by simp))]
      rw [entryId_file_eq hx hsd]
      dsimp only
      by_cases hcond : (decide (ext = e) && (get_backup_date fn).isSome) = true
      · rw [if_pos hcond, if_pos hcond]
        try cases scanEntries folders e rest <;> rfl
      · rw [if_neg hcond, if_neg hcond]
        try cases scanEntries folders e rest <;> rfl
  · have hx' : x.isFile = false := by
      cases hxx : x.isFile
      · rfl
      · exact absurd hxx hx
    rw [if_neg (show ¬(x.isFile = true ∧ splitDot x.name = none) from
      fun hh => hx hh.1)]
    rw [if_neg hx]
    rw [entryId_dir_eq hx']
    by_cases hcond : (folders && (get_backup_date x.name).isSome) = true
    · rw [if_pos hcond, if_pos hcond]
      try cases scanEntries folders e rest <;> rfl
    · rw [if_neg hcond, if_neg hcond]
      try cases scanEntries folders e rest <;> rfl

/-- A successful scan returns exactly the kept identifiers, in order. -/
theorem scanEntries_eq_keptIds {folders : Bool} {e : String} :
    ∀ {entries : List Entry} {l : List String},
      scanEntries folders e entries = some l → l = keptIds folders e entries
  | [], l, h => by
    simp only [scanEntries, Option.some.injEq] at h
    simp [keptIds, ← h]
  | x :: rest, l, h => by
    rw [scanEntries_cons] at h
    split at h
    · exact absurd h (by simp)
    · cases hrec : scanEntries folders e rest with
      | none => rw [hrec] at h; exact absurd h (by simp)
      | some l' =>
        rw [hrec] at h
        simp only [Option.map_some', Option.some.injEq] at h
        rw [← h, scanEntries_eq_keptIds hrec]
        unfold keptIds
        rw [List.filterMap_cons]
        cases entryId folders e x <;> rfl

/-- A scan succeeds when every file entry's name contains a dot. -/
theorem scanEntries_isSome {folders : Bool} {e : String} :
    ∀ {entries : List Entry},
      (∀ x ∈ entries, x.isFile = true → hasDot x.name = true) →
      scanEntries folders e entries = some (keptIds folders e entries)
  | [], _ => by simp [scanEntries, keptIds]
  | x :: rest, h => by
    have hrest := @scanEntries_isSome folders e rest
      (fun y hy => h y (List.mem_cons_of_mem x hy))
    rw [scanEntries_cons]
    rw [if_neg (by
      rintro ⟨hf, hn⟩
      have := h x (List.mem_cons_self x rest) hf
      rw [splitDot_none_iff.mp hn] at this
      exact absurd this (by simp))]
    rw [hrest]
    unfold keptIds
    rw [List.filterMap_cons]
    cases entryId folders e x <;> rfl

/-! ### Order facts for the sort -/

theorem lexLe_total : ∀ (a b : List Char), (lexLe a b || lexLe b a) = true
  | [], _ => by simp [lexLe]
  | _ :: _, [] => by simp [lexLe]
  | a :: as, b :: bs => by
    unfold lexLe
    rcases Nat.lt_trichotomy a.toNat b.toNat with h | h | h
    · rw [if_pos h]; simp
    · rw [if_neg (by simp [h]), if_pos h, if_neg (by simp [h]), if_pos h.symm]
      exact lexLe_total as bs
    · rw [if_neg (by simp [Nat.le_of_lt h, Nat.not_lt]),
        if_neg (by simp [Nat.ne_of_gt h]), if_pos h]
      simp

theorem lexLe_trans : ∀ (a b c : List Char),
    lexLe a b = true → lexLe b c = true → lexLe a c = true
  | [], _, _, _, _ => by simp [lexLe]
  | _ :: _, [], _, h, _ => by simp [lexLe] at h
  | _ :: _, _ :: _, [], _, h => by simp [lexLe] at h
  | a :: as, b :: bs, c :: cs, h1, h2 => by
    unfold lexLe at h1 h2 ⊢
    rcases Nat.lt_trichotomy a.toNat b.toNat with hab | hab | hab
    · rcases Nat.lt_trichotomy b.toNat c.toNat with hbc | hbc | hbc
      · rw [if_pos (Nat.lt_trans hab hbc)]
      · rw [if_pos (hbc ▸ hab)]
      · rw [if_neg (by simp [hbc, Nat.not_lt, Nat.le_of_lt]), if_neg (by simp [Nat.ne_of_gt hbc])] at h2
        simp at h2
    · rcases Nat.lt_trichotomy b.toNat c.toNat with hbc | hbc | hbc
      · rw [if_pos (hab ▸ hbc)]
      · rw [if_neg (by simp [hab, hbc]), if_pos (hab.trans hbc)]
        rw [if_neg (by simp [hab]), if_pos hab] at h1
        rw [if_neg (by simp [hbc]), if_pos hbc] at h2
        exact lexLe_trans as bs cs h1 h2
      · rw [if_neg (by simp [hbc, Nat.not_lt, Nat.le_of_lt]), if_neg (by simp [Nat.ne_of_gt hbc])] at h2
        simp at h2
    · rw [if_neg (by simp [hab, Nat.not_lt, Nat.le_of_lt]), if_neg (by simp [Nat.ne_of_gt hab])] at h1
      simp at h1

theorem strLe_total (a b : String) : (strLe a b || strLe b a) = true :=
  lexLe_total a.data b.data

theorem strLe_trans (a b c : String) :
    strLe a b = true → strLe b c = true → strLe a c = true :=
  lexLe_trans a.data b.data c.data

theorem insertSorted_perm (s : String) :
    ∀ l : List String, (insertSorted s l).Perm (s :: l)
  | [] => List.Perm.refl _
  | t :: rest => by
    unfold insertSorted
    by_cases h : strLe s t = true
    · rw [if_pos h]
    · rw [if_neg h]
      exact ((insertSorted_perm s rest).cons t).trans (List.Perm.swap s t rest)

/-- The sort output is a permutation of its input. -/
theorem sortStrings_perm : ∀ l : List String, (sortStrings l).Perm l
  | [] => List.Perm.refl _
  | s :: rest => by
    unfold sortStrings
    exact (insertSorted_perm s (sortStrings rest)).trans
      ((sortStrings_perm rest).cons s)

theorem insertSorted_pairwise (s : String) :
    ∀ {l : List String}, l.Pairwise (fun a b => strLe a b = true) →
      (insertSorted s l).Pairwise (fun a b => strLe a b = true)
  | [], _ => by simp [insertSorted]
  | t :: rest, h => by
    unfold insertSorted
    rw [List.pairwise_cons] at h
    by_cases hst : strLe s t = true
    · rw [if_pos hst]
      refine List.Pairwise.cons ?_ (List.Pairwise.cons h.1 h.2)
      intro b hb
      rcases List.mem_cons.mp hb with hb | hb
      · exact hb ▸ hst
      · exact strLe_trans s t b hst (h.1 b hb)
    · rw [if_neg hst]
      have hts : strLe t s = true := by
        rcases Bool.or_eq_true_iff.mp (strLe_total s t) with hh | hh
        · exact absurd hh hst
        · exact hh
      refine List.Pairwise.cons ?_ (insertSorted_pairwise s h.2)
      intro b hb
      have hb' := (insertSorted_perm s rest).mem_iff.mp hb
      rcases List.mem_cons.mp hb' with hb' | hb'
      · exact hb' ▸ hts
      · exact h.1 b hb'

/-- The sort output is sorted for `strLe`. -/
theorem sortStrings_sorted :
    ∀ l : List String, (sortStrings l).Pairwise (fun a b => strLe a b = true)
  | [] => by simp [sortStrings]
  | s :: rest => by
    unfold sortStrings
    exact insertSorted_pairwise s (sortStrings_sorted rest)

/-- A successful `get_directory_files` is the sort of the kept ids. -/
theorem get_directory_files_eq {folders : Bool} {e : String}
    {entries : List Entry} {files : List String}
    (h : get_directory_files folders e entries = some files) :
    files = sortStrings (keptIds folders e entries) := by
  unfold get_directory_files at h
  cases hsc : scanEntries folders e entries with
  | none => rw [hsc] at h; exact absurd h (by simp)
  | some l =>
    rw [hsc] at h
    simp only [Option.map_some', Option.some.injEq] at h
    rw [← h, scanEntries_eq_keptIds hsc]

/-! ### The boundary classifier -/

theorem digitVal_le {c : Char} (hc : isDig c = true) : digitVal c ≤ 9 := by
  unfold isDig at hc
  simp only [Bool.and_eq_true, decide_eq_true_eq] at hc
  unfold digitVal
  omega

theorem takeYear_le {cs rest : List Char} {y : Nat}
    (h : takeYear cs = some (y, rest)) : y ≤ 9999 := by
  unfold takeYear at h
  split at h
  · split at h
    · next hdig =>
      simp only [Bool.and_eq_true] at hdig
      have ha := digitVal_le hdig.1.1.1
      have hb := digitVal_le hdig.1.1.2
      have hc := digitVal_le hdig.1.2
      have hd := digitVal_le hdig.2
      simp only [Option.some.injEq, Prod.mk.injEq] at h
      omega
    · exact absurd h (by simp)
  · exact absurd h (by simp)

theorem strptimeDashed_year_le {s : String} {d : Date}
    (h : strptimeDashed s = some d) : d.year ≤ 9999 := by
  unfold strptimeDashed at h
  cases hy : takeYear s.data with
  | none => rw [hy] at h; exact absurd h (by simp)
  | some yr =>
    obtain ⟨y, rest⟩ := yr
    rw [hy] at h
    dsimp only at h
    split at h
    · split at h
      · split at h
        · simp only [Option.some.injEq] at h
          rw [← h]
          exact takeYear_le hy
        · exact absurd h (by simp)
      · exact absurd h (by simp)
    · exact absurd h (by simp)

theorem strptimeCompact_year_le {s : String} {d : Date}
    (h : strptimeCompact s = some d) : d.year ≤ 9999 := by
  unfold strptimeCompact at h
  cases hy : takeYear s.data with
  | none => rw [hy] at h; exact absurd h (by simp)
  | some yr =>
    obtain ⟨y, rest⟩ := yr
    rw [hy] at h
    dsimp only at h
    split at h
    · split at h
      · simp only [Option.some.injEq] at h
        rw [← h]
        exact takeYear_le hy
      · exact absurd h (by simp)
    · exact absurd h (by simp)

theorem get_backup_date_year_le {f : String} {d : Date}
    (h : get_backup_date f = some d) : d.year ≤ 9999 := by
  unfold get_backup_date at h
  dsimp only at h
  split at h
  · next hd =>
    simp only [Option.some.injEq] at h
    exact h ▸ strptimeDashed_year_le hd
  · exact strptimeCompact_year_le h

/-- On a filename whose date resolves, `is_end_of` computes `boundaryB`
of that date (and does not raise), provided the monthly rollover does not
run past year 9999. -/
theorem is_end_of_eq_boundaryB {f : String} {d : Date}
    (h : get_backup_date f = some d)
    (h9 : ¬(d.year = 9999 ∧ d.month = 12)) (t : Level) :
    is_end_of t f = some (boundaryB t d) := by
  unfold is_end_of boundaryB
  rw [h]
  cases t with
  | daily => rfl
  | weekly => rfl
  | yearly => rfl
  | monthly =>
    dsimp only
    rw [if_neg]
    by_cases hm : d.month + 1 = 13
    · have : d.month = 12 := by omega
      have hy : d.year ≤ 9999 := get_backup_date_year_le h
      have : d.year ≠ 9999 := fun hh => h9 ⟨hh, this⟩
      rw [if_pos hm]
      simp only
      omega
    · rw [if_neg hm]
      simp only
      exact Nat.not_lt.mpr (get_backup_date_year_le h)

/-- The removal-loop body equals a first-match search: walking any list of
target levels moves to the first whose boundary holds and deletes when
none does. -/
theorem processCandidate_eq_find (S : Shears) (ext : String) (level : Level)
    (f : String) (fs : FS) (d : Date) (h : get_backup_date f = some d)
    (h9 : ¬(d.year = 9999 ∧ d.month = 12)) :
    ∀ suffix : List Level,
      processCandidate S ext level f fs suffix =
        match suffix.find? (fun t => boundaryB t d) with
        | some t => S.move f ext level t fs
        | none => S.delete f ext (.level level) fs
  | [] => rfl
  | t :: rest => by
    unfold processCandidate
    rw [is_end_of_eq_boundaryB h h9 t]
    cases hb : boundaryB t d
    · rw [List.find?_cons_of_neg (p := fun l => boundaryB l d) rest (by simp [hb])]
      exact processCandidate_eq_find S ext level f fs d h h9 rest
    · rw [List.find?_cons_of_pos (p := fun l => boundaryB l d) rest hb]

/-! ### Claim theorems -/

/-- C4 (counterexample): the identifier `20180816_test` does *not* resolve
to 2018-08-16 — `get_backup_date` tries `%Y%m%d` on the part of the
*original* name before the first `-`, which here is the whole name. -/
theorem date_extractor_counterexample :
    get_backup_date "20180816_test" = none := by decide

/-- C4 (amended): the extractor splits once on the first `_` only for the
`YYYY-MM-DD` attempt; when that fails it re-splits the original
identifier on the first `-` for the `YYYYMMDD` attempt.  Hence
`2018-08-16_test` and `20180816-test` resolve, while `20180816_test`
yields no date (the `%Y-%m-%d` attempt sees `20180816` and the `%Y%m%d`
attempt sees the whole `20180816_test`). -/
theorem get_backup_date_two_stage :
    get_backup_date "2018-08-16_test" = some ⟨2018, 8, 16⟩ ∧
    get_backup_date "20180816-test" = some ⟨2018, 8, 16⟩ ∧
    get_backup_date "20180816-1200" = some ⟨2018, 8, 16⟩ ∧
    get_backup_date "20180816" = some ⟨2018, 8, 16⟩ ∧
    get_backup_date "2018-08-16" = some ⟨2018, 8, 16⟩ ∧
    splitOnce "20180816_test" '_' = some ("20180816", "test") ∧
    strptimeDashed "20180816" = none ∧
    splitOnce "20180816_test" '-' = none ∧
    strptimeCompact "20180816_test" = none ∧
    get_backup_date "20180816_test" = none := by decide

/-- C5 (counterexample): with `YYYY-MM-DD` and `YYYYMMDD` identifiers
mixed in one directory, the ascending-sorted scan output is *not*
chronological (`'-' < '0'` makes every dashed name sort first), and the
overflow evicted at capacity 1 is the *newest* artifact by date. -/
theorem mixed_format_order_counterexample :
    get_directory_files false "bak"
        [⟨"2018-12-31.bak", true⟩, ⟨"20180101.bak", true⟩] =
      some ["2018-12-31", "20180101"] ∧
    get_backup_date "2018-12-31" = some ⟨2018, 12, 31⟩ ∧
    get_backup_date "20180101" = some ⟨2018, 1, 1⟩ ∧
    toOrdinal ⟨2018, 1, 1⟩ < toOrdinal ⟨2018, 12, 31⟩ ∧
    overflowCandidates ["2018-12-31", "20180101"] 1 = ["2018-12-31"] := by
  decide

/-- C5 (amended): the scan output is ascending in the *lexicographic*
string order, and the overflow candidates evicted against capacity `k`
are the lexicographically smallest `len − k` entries (which coincide with
the oldest dates only when identifiers share one zero-padded format). -/
theorem scan_sorted_overflow_smallest (folders : Bool) (e : String)
    (entries : List Entry) (files : List String) (k : Nat)
    (h : get_directory_files folders e entries = some files) :
    files.Pairwise (fun a b => strLe a b = true) ∧
    ∀ r ∈ overflowCandidates files k, ∀ v ∈ files.drop (files.length - k),
      strLe r v = true := by
  have hf := get_directory_files_eq h
  subst hf
  refine ⟨sortStrings_sorted _, ?_⟩
  intro r hr v hv
  have hp := sortStrings_sorted (keptIds folders e entries)
  rw [← List.take_append_drop
    ((sortStrings (keptIds folders e entries)).length - k)
    (sortStrings (keptIds folders e entries))] at hp
  exact (List.pairwise_append.mp hp).2.2 r hr v hv

theorem scan_sorted_overflow_smallest_witness :
    (["2018-01-01", "2018-01-02"] : List String).Pairwise
      (fun a b => strLe a b = true) ∧
    ∀ r ∈ overflowCandidates ["2018-01-01", "2018-01-02"] 1,
      ∀ v ∈ (["2018-01-01", "2018-01-02"] : List String).drop
        ((["2018-01-01", "2018-01-02"] : List String).length - 1),
      strLe r v = true :=
  scan_sorted_overflow_smallest false "bak"
    [⟨"2018-01-01.bak", true⟩, ⟨"2018-01-02.bak", true⟩]
    ["2018-01-01", "2018-01-02"] 1 (by decide)

/-- C6 (counterexample): `2018-08-16_v1.2.bak` scanned under extension
`bak` is *skipped*, not matched — the scanner splits at the *first* dot,
so the compared extension is `2.bak`. -/
theorem dotted_description_counterexample :
    scanEntries false "bak" [⟨"2018-08-16_v1.2.bak", true⟩] = some [] := by
  decide

/-- C6 (amended): extension matching splits an entry name at the *first*
dot and compares the whole remainder with the requested token: an
identifier with no dot followed by any (possibly multi-segment) token
matches and yields that identifier, e.g. `2018-08-16_test.tar.gz` under
`tar.gz`; but an entry whose identifier part itself contains a dot never
matches (its remainder after the first dot is not the token). -/
theorem first_dot_extension_matching :
    (∀ (idStr extStr : String), '.' ∉ idStr.data →
      (get_backup_date idStr).isSome = true →
      scanEntries false extStr [⟨idStr ++ "." ++ extStr, true⟩] = some [idStr]) ∧
    scanEntries false "tar.gz" [⟨"2018-08-16_test.tar.gz", true⟩] =
      some ["2018-08-16_test"] ∧
    scanEntries false "bak" [⟨"2018-08-16_v1.2.bak", true⟩] = some [] := by
  refine ⟨?_, by decide, by decide⟩
  intro idStr extStr hnd hdate
  rw [scanEntries_cons]
  rw [if_neg (by
    rintro ⟨-, hn⟩
    rw [splitDot_compose hnd] at hn
    exact absurd hn (by simp))]
  have hent : entryId false extStr ⟨idStr ++ "." ++ extStr, true⟩ = some idStr := by
    rw [entryId_file_eq rfl (splitDot_compose hnd)]
    rw [if_pos (by simp [hdate])]
  simp only [hent]
  rfl

theorem first_dot_extension_matching_witness :
    scanEntries false "tar.gz" [⟨"2018-01-05" ++ "." ++ "tar.gz", true⟩] =
      some ["2018-01-05"] :=
  first_dot_extension_matching.1 "2018-01-05" "tar.gz" (by decide) (by decide)

/-- C7 (counterexample): a file entry whose name contains no dot makes
the scan raise (`str.split('.', 1)` unpacking fails), so scanning *can*
fail on account of an entry's name. -/
theorem dotless_file_counterexample :
    scanEntries false "bak" [⟨"README", true⟩, ⟨"2018-01-01.bak", true⟩] =
      none := by decide

/-- C7 (amended): provided every *file* entry's name contains at least
one dot, the scan succeeds, and an entry appears in the output exactly
when its `entryId` matches — entries with a mismatched suffix or an
undated identifier are skipped without error and excluded from
counting.  (A dotless file name instead aborts the scan with an
error.) -/
theorem scan_skips_invalid_entries (folders : Bool) (e : String)
    (entries : List Entry)
    (hdots : ∀ x ∈ entries, x.isFile = true → hasDot x.name = true) :
    scanEntries folders e entries = some (keptIds folders e entries) ∧
    ∀ fid : String, fid ∈ keptIds folders e entries ↔
      ∃ x ∈ entries, entryId folders e x = some fid := by
  refine ⟨scanEntries_isSome hdots, fun fid => ?_⟩
  unfold keptIds
  exact List.mem_filterMap

theorem scan_skips_invalid_entries_witness :
    scanEntries false "bak" [⟨"2018-01-01.bak", true⟩, ⟨"2018-01-01.tmp", true⟩,
        ⟨"nodate.bak", true⟩] =
      some (keptIds false "bak" [⟨"2018-01-01.bak", true⟩,
        ⟨"2018-01-01.tmp", true⟩, ⟨"nodate.bak", true⟩]) ∧
    ∀ fid : String, fid ∈ keptIds false "bak" [⟨"2018-01-01.bak", true⟩,
        ⟨"2018-01-01.tmp", true⟩, ⟨"nodate.bak", true⟩] ↔
      ∃ x ∈ [⟨"2018-01-01.bak", true⟩, ⟨"2018-01-01.tmp", true⟩,
        (⟨"nodate.bak", true⟩ : Entry)], entryId false "bak" x = some fid :=
  scan_skips_invalid_entries false "bak" _ (by decide)

/-- C10: `is_end_of` dereferences the parsed date unconditionally, so it
raises (rather than returning false) on any filename whose date does not
resolve; and every identifier produced by the directory scanner has a
resolving date, so that failure branch is unreachable from a prune run. -/
theorem is_end_of_requires_parsed_date :
    (∀ (t : Level) (f : String), get_backup_date f = none →
      is_end_of t f = none) ∧
    (∀ (folders : Bool) (e : String) (entries : List Entry)
      (l : List String) (f : String),
      scanEntries folders e entries = some l → f ∈ l →
        (get_backup_date f).isSome = true) := by
  constructor
  · intro t f h
    unfold is_end_of
    rw [h]
  · intro folders e entries l f hsc hf
    rw [scanEntries_eq_keptIds hsc] at hf
    unfold keptIds at hf
    obtain ⟨x, hx, hid⟩ := List.mem_filterMap.mp hf
    by_cases hxf : x.isFile = true
    · exact (entryId_file_shape hxf hid).2
    · have hx' : x.isFile = false := by
        cases hxx : x.isFile
        · rfl
        · exact absurd hxx hxf
      exact (entryId_dir_shape hx' hid).2.2

theorem is_end_of_requires_parsed_date_witness :
    is_end_of .weekly "junk" = none ∧
    (get_backup_date "2018-01-01").isSome = true :=
  ⟨is_end_of_requires_parsed_date.1 .weekly "junk" (by decide),
   is_end_of_requires_parsed_date.2 false "bak" [⟨"2018-01-01.bak", true⟩]
     ["2018-01-01"] "2018-01-01" (by decide) (by decide)⟩

/-- C1: for an overflow candidate whose date resolves, the removal loop
searches exactly the levels strictly after the current one in the fixed
order, relocates the artifact to the *first* level whose boundary rule
holds for its date, and permanently removes it (file delete or directory
tree removal according to mode) when none matches. -/
theorem prune_promotion_first_match (S : Shears) (ext : String)
    (level : Level) (f : String) (fs : FS) (d : Date)
    (h : get_backup_date f = some d)
    (h9 : ¬(d.year = 9999 ∧ d.month = 12)) :
    processCandidate S ext level f fs (levelsAfter level) =
      match (levelsAfter level).find? (fun t => boundaryB t d) with
      | some t => S.move f ext level t fs
      | none => S.delete f ext (.level level) fs :=
  processCandidate_eq_find S ext level f fs d h h9 (levelsAfter level)

theorem prune_promotion_first_match_witness :
    processCandidate exShears "bak" .daily "2018-06-23" emptyFS
        (levelsAfter .daily) =
      match (levelsAfter .daily).find? (fun t => boundaryB t ⟨2018, 6, 23⟩) with
      | some t => exShears.move "2018-06-23" "bak" .daily t emptyFS
      | none => exShears.delete "2018-06-23" "bak" (.level .daily) emptyFS :=
  prune_promotion_first_match exShears "bak" .daily "2018-06-23" emptyFS
    ⟨2018, 6, 23⟩ (by decide) (by decide)

/-- C2 (counterexample): with two requested extensions and capacity 1,
a run completes with no actions while the daily tier still holds 2 valid
artifacts (one per extension) — the per-tier count exceeds the
capacity.  The bound the code enforces is per (tier, extension). -/
theorem capacity_bound_counterexample :
    c2Shears.limit = none ∧ c2Shears.dryrun = false ∧
    c2Shears.prune c2FS = some (c2FS, []) ∧
    tierValidCount c2Shears c2FS .daily = 2 ∧
    c2Shears.backup_levels .daily = 1 := by decide

/-- C3 (counterexample): a tier with capacity 0 *is* scanned — with every
capacity 0 and no flat limit, a run over a daily tier holding one
artifact deletes it (one deletion, not zero), instead of leaving the
tier untouched. -/
theorem zero_capacity_scanned_counterexample :
    c3Shears.backup_levels .daily = 0 ∧ c3Shears.backup_levels .weekly = 0 ∧
    c3Shears.backup_levels .monthly = 0 ∧ c3Shears.backup_levels .yearly = 0 ∧
    c3Shears.limit = none ∧
    c3Shears.prune c3FS =
      some (emptyFS, [.del (.level .daily) "2018-01-01.bak"]) := by decide

/-- C9 (counterexample): dry-run decisions are computed against the
*unmutated* tree, so they can differ from a real run's: here the real
run's promotion into `weekly` (capacity 0) triggers a second promotion
out of `weekly` that the dry run never reports. -/
theorem dryrun_decisions_differ_counterexample :
    c9ShearsDry.dryrun = true ∧
    c9ShearsDry.prune c9FS =
      some (c9FS, [.move .daily "2018-06-30_x" .weekly]) ∧
    c9ShearsReal.prune c9FS =
      some (⟨[], [], [], [⟨"2018-06-30_x.bak", true⟩], []⟩,
        [.move .daily "2018-06-30_x" .weekly,
         .move .weekly "2018-06-30_x" .monthly]) ∧
    ([PruneAction.move .daily "2018-06-30_x" .weekly] : List PruneAction) ≠
      [.move .daily "2018-06-30_x" .weekly,
       .move .weekly "2018-06-30_x" .monthly] := by decide

/-! ### Dry-run leaves the tree unchanged -/

theorem delete_dryrun {S : Shears} {f e : String} {loc : Loc} {fs fs₁ : FS}
    {tr : List PruneAction} (hd : S.dryrun = true)
    (h : S.delete f e loc fs = some (fs₁, tr)) : fs₁ = fs := by
  unfold Shears.delete at h
  rw [hd, if_pos rfl] at h
  simp only [Option.some.injEq, Prod.mk.injEq] at h
  exact h.1.symm

theorem move_dryrun {S : Shears} {f e : String} {src tgt : Level} {fs fs₁ : FS}
    {tr : List PruneAction} (hd : S.dryrun = true)
    (h : S.move f e src tgt fs = some (fs₁, tr)) : fs₁ = fs := by
  unfold Shears.move at h
  rw [hd, if_pos rfl] at h
  simp only [Option.some.injEq, Prod.mk.injEq] at h
  exact h.1.symm

theorem processCandidate_dryrun {S : Shears} {e : String} {level : Level}
    {f : String} (hd : S.dryrun = true) :
    ∀ {suffix : List Level} {fs fs₁ : FS} {tr : List PruneAction},
      processCandidate S e level f fs suffix = some (fs₁, tr) → fs₁ = fs
  | [], fs, fs₁, tr, h => delete_dryrun hd h
  | t :: rest, fs, fs₁, tr, h => by
    unfold processCandidate at h
    cases hie : is_end_of t f with
    | none => rw [hie] at h; exact absurd h (by simp)
    | some b =>
      rw [hie] at h
      cases b with
      | true => exact move_dryrun hd h
      | false => exact processCandidate_dryrun hd h

theorem processCandidates_dryrun {S : Shears} {e : String} {level : Level}
    {suffix : List Level} (hd : S.dryrun = true) :
    ∀ {ids : List String} {fs fs₁ : FS} {tr : List PruneAction},
      processCandidates S e level suffix ids fs = some (fs₁, tr) → fs₁ = fs
  | [], fs, fs₁, tr, h => by
    unfold processCandidates at h
    simp only [Option.some.injEq, Prod.mk.injEq] at h
    exact h.1.symm
  | f :: rest, fs, fs₁, tr, h => by
    unfold processCandidates at h
    cases h1 : processCandidate S e level f fs suffix with
    | none => rw [h1] at h; exact absurd h (by simp)
    | some p1 =>
      obtain ⟨fsa, tra⟩ := p1
      rw [h1] at h
      dsimp only at h
      cases h2 : processCandidates S e level suffix rest fsa with
      | none => rw [h2] at h; exact absurd h (by simp)
      | some p2 =>
        obtain ⟨fsb, trb⟩ := p2
        rw [h2] at h
        simp only [Option.some.injEq, Prod.mk.injEq] at h
        rw [← h.1]
        rw [processCandidates_dryrun hd h2]
        exact processCandidate_dryrun hd h1

theorem prune_level_dryrun {S : Shears} {e : String} {level : Level}
    {fs fs₁ : FS} {tr : List PruneAction} (hd : S.dryrun = true)
    (h : prune_level S e level fs = some (fs₁, tr)) : fs₁ = fs := by
  unfold prune_level at h
  cases hsc : get_directory_files S.folders e (fs.dir level) with
  | none => rw [hsc] at h; exact absurd h (by simp)
  | some files =>
    rw [hsc] at h
    exact processCandidates_dryrun hd h

theorem pruneLevelExts_dryrun {S : Shears} {level : Level}
    (hd : S.dryrun = true) :
    ∀ {exts : List String} {fs fs₁ : FS} {tr : List PruneAction},
      pruneLevelExts S level exts fs = some (fs₁, tr) → fs₁ = fs
  | [], fs, fs₁, tr, h => by
    unfold pruneLevelExts at h
    simp only [Option.some.injEq, Prod.mk.injEq] at h
    exact h.1.symm
  | e :: rest, fs, fs₁, tr, h => by
    unfold pruneLevelExts at h
    cases h1 : prune_level S e level fs with
    | none => rw [h1] at h; exact absurd h (by simp)
    | some p1 =>
      obtain ⟨fsa, tra⟩ := p1
      rw [h1] at h
      dsimp only at h
      cases h2 : pruneLevelExts S level rest fsa with
      | none => rw [h2] at h; exact absurd h (by simp)
      | some p2 =>
        obtain ⟨fsb, trb⟩ := p2
        rw [h2] at h
        simp only [Option.some.injEq, Prod.mk.injEq] at h
        rw [← h.1, pruneLevelExts_dryrun hd h2]
        exact prune_level_dryrun hd h1

theorem pruneLevels_dryrun {S : Shears} (hd : S.dryrun = true) :
    ∀ {ls : List Level} {fs fs₁ : FS} {tr : List PruneAction},
      pruneLevels S ls fs = some (fs₁, tr) → fs₁ = fs
  | [], fs, fs₁, tr, h => by
    unfold pruneLevels at h
    simp only [Option.some.injEq, Prod.mk.injEq] at h
    exact h.1.symm
  | l :: rest, fs, fs₁, tr, h => by
    unfold pruneLevels at h
    cases h1 : pruneLevelExts S l S.file_extensions fs with
    | none => rw [h1] at h; exact absurd h (by simp)
    | some p1 =>
      obtain ⟨fsa, tra⟩ := p1
      rw [h1] at h
      dsimp only at h
      cases h2 : pruneLevels S rest fsa with
      | none => rw [h2] at h; exact absurd h (by simp)
      | some p2 =>
        obtain ⟨fsb, trb⟩ := p2
        rw [h2] at h
        simp only [Option.some.injEq, Prod.mk.injEq] at h
        rw [← h.1, pruneLevels_dryrun hd h2]
        exact pruneLevelExts_dryrun hd h1

theorem deleteAll_dryrun {S : Shears} {e : String} (hd : S.dryrun = true) :
    ∀ {ids : List String} {fs fs₁ : FS} {tr : List PruneAction},
      deleteAll S e ids fs = some (fs₁, tr) → fs₁ = fs
  | [], fs, fs₁, tr, h => by
    unfold deleteAll at h
    simp only [Option.some.injEq, Prod.mk.injEq] at h
    exact h.1.symm
  | f :: rest, fs, fs₁, tr, h => by
    unfold deleteAll at h
    cases h1 : S.delete f e .root fs with
    | none => rw [h1] at h; exact absurd h (by simp)
    | some p1 =>
      obtain ⟨fsa, tra⟩ := p1
      rw [h1] at h
      dsimp only at h
      cases h2 : deleteAll S e rest fsa with
      | none => rw [h2] at h; exact absurd h (by simp)
      | some p2 =>
        obtain ⟨fsb, trb⟩ := p2
        rw [h2] at h
        simp only [Option.some.injEq, Prod.mk.injEq] at h
        rw [← h.1, deleteAll_dryrun hd h2]
        exact delete_dryrun hd h1

theorem prune_limit_dryrun {S : Shears} {e : String} {k : Nat}
    {fs fs₁ : FS} {tr : List PruneAction} (hd : S.dryrun = true)
    (h : prune_limit S e k fs = some (fs₁, tr)) : fs₁ = fs := by
  unfold prune_limit at h
  cases hsc : get_directory_files S.folders e fs.root with
  | none => rw [hsc] at h; exact absurd h (by simp)
  | some files =>
    rw [hsc] at h
    exact deleteAll_dryrun hd h

theorem pruneLimitExts_dryrun {S : Shears} {k : Nat} (hd : S.dryrun = true) :
    ∀ {exts : List String} {fs fs₁ : FS} {tr : List PruneAction},
      pruneLimitExts S k exts fs = some (fs₁, tr) → fs₁ = fs
  | [], fs, fs₁, tr, h => by
    unfold pruneLimitExts at h
    simp only [Option.some.injEq, Prod.mk.injEq] at h
    exact h.1.symm
  | e :: rest, fs, fs₁, tr, h => by
    unfold pruneLimitExts at h
    cases h1 : prune_limit S e k fs with
    | none => rw [h1] at h; exact absurd h (by simp)
    | some p1 =>
      obtain ⟨fsa, tra⟩ := p1
      rw [h1] at h
      dsimp only at h
      cases h2 : pruneLimitExts S k rest fsa with
      | none => rw [h2] at h; exact absurd h (by simp)
      | some p2 =>
        obtain ⟨fsb, trb⟩ := p2
        rw [h2] at h
        simp only [Option.some.injEq, Prod.mk.injEq] at h
        rw [← h.1, pruneLimitExts_dryrun hd h2]
        exact prune_limit_dryrun hd h1

/-- C9 (amended): with the dry-run flag set, a run that completes mutates
nothing — `delete` performs no removal and `move` performs no rename, so
the whole directory tree is unchanged.  (Decisions are computed per tier
against the unmutated state, so the reported sequence can differ from a
real run's once a real promotion would have changed a later tier.) -/
theorem dryrun_no_mutation (S : Shears) (fs fs₁ : FS) (tr : List PruneAction)
    (hd : S.dryrun = true) (h : S.prune fs = some (fs₁, tr)) : fs₁ = fs := by
  unfold Shears.prune at h
  cases hl : S.limit with
  | none => rw [hl] at h; exact pruneLevels_dryrun hd h
  | some k => rw [hl] at h; exact pruneLimitExts_dryrun hd h

theorem dryrun_no_mutation_witness : c9FS = c9FS :=
  dryrun_no_mutation c9ShearsDry c9FS c9FS
    [.move .daily "2018-06-30_x" .weekly] (by decide) (by decide)

/-! ### State update helpers -/

theorem FS.loc_setLoc_same (fs : FS) (loc : Loc) (l : List Entry) :
    (fs.setLoc loc l).loc loc = l := by
  cases loc with
  | root => rfl
  | level lv => cases lv <;> rfl

theorem FS.loc_setLoc_other (fs : FS) {loc loc' : Loc} (l : List Entry)
    (hne : loc' ≠ loc) : (fs.setLoc loc l).loc loc' = fs.loc loc' := by
  cases loc with
  | root =>
    cases loc' with
    | root => exact absurd rfl hne
    | level lv' => cases lv' <;> rfl
  | level lv =>
    cases loc' with
    | root => cases lv <;> rfl
    | level lv' =>
      cases lv <;> cases lv' <;> first | rfl | exact absurd rfl hne

theorem FS.dir_setDir_same (fs : FS) (lv : Level) (l : List Entry) :
    (fs.setDir lv l).dir lv = l := by
  cases lv <;> rfl

theorem FS.dir_setDir_other (fs : FS) {lv lv' : Level} (l : List Entry)
    (hne : lv' ≠ lv) : (fs.setDir lv l).dir lv' = fs.dir lv' := by
  cases lv <;> cases lv' <;> first | rfl | exact absurd rfl hne

theorem FS.root_setDir (fs : FS) (lv : Level) (l : List Entry) :
    (fs.setDir lv l).root = fs.root := by
  cases lv <;> rfl

theorem FS.loc_level (fs : FS) (lv : Level) :
    fs.loc (.level lv) = fs.dir lv := rfl

theorem FS.loc_root (fs : FS) : fs.loc .root = fs.root := rfl

/-- `wfFS` read off at a location. -/
theorem wfFS_loc {fs : FS} (h : wfFS fs) : ∀ loc : Loc, wfDir (fs.loc loc)
  | .root => h.1
  | .level .daily => h.2.1
  | .level .weekly => h.2.2.1
  | .level .monthly => h.2.2.2.1
  | .level .yearly => h.2.2.2.2

/-- Rebuild `wfFS` from the per-location facts. -/
theorem wfFS_of_loc {fs : FS} (h : ∀ loc : Loc, wfDir (fs.loc loc)) :
    wfFS fs :=
  ⟨h .root, h (.level .daily), h (.level .weekly), h (.level .monthly),
   h (.level .yearly)⟩

theorem wfDir_filter {l : List Entry} (p : Entry → Bool) (h : wfDir l) :
    wfDir (l.filter p) := by
  constructor
  · have : (namesOf (l.filter p)).Sublist (namesOf l) := by
      unfold namesOf
      exact ((l.filter_sublist (p := p)).map (fun e => e.name))
    exact h.1.sublist this
  · intro x hx hf
    exact h.2 x (List.mem_of_mem_filter hx) hf

/-- Removing a unique name from a listing is, up to permutation, removing
the one entry that bears it. -/
theorem perm_cons_filter_name :
    ∀ {l : List Entry} {ent : Entry}, (namesOf l).Nodup → ent ∈ l →
      l.Perm (ent :: l.filter (fun x => x.name ≠ ent.name))
  | [], ent, _, hent => absurd hent (by simp)
  | y :: rest, ent, hnd, hent => by
    unfold namesOf at hnd
    rw [List.map_cons, List.nodup_cons] at hnd
    rcases List.mem_cons.mp hent with hy | hy
    · subst hy
      rw [List.filter_cons_of_neg (by simp)]
      have hres : rest.filter (fun x => x.name ≠ ent.name) = rest := by
        rw [List.filter_eq_self]
        intro a ha
        simp only [ne_eq, decide_not, Bool.not_eq_true',
          decide_eq_false_iff_not]
        intro hh
        exact hnd.1 (hh ▸ List.mem_map_of_mem (fun e => e.name) ha)
      rw [hres]
    · have hyne : y.name ≠ ent.name := by
        intro hh
        exact hnd.1 (hh ▸ List.mem_map_of_mem (fun e => e.name) hy)
      rw [List.filter_cons_of_pos (by simp [hyne])]
      have hrec := @perm_cons_filter_name rest ent hnd.2 hy
      exact (hrec.cons y).trans (List.Perm.swap ent y _)

/-- A kept identifier has no dot when it came from a file entry. -/
theorem keptId_file_no_dot {folders : Bool} {e f : String} {x : Entry}
    (hx : x.isFile = true) (h : entryId folders e x = some f) :
    '.' ∉ f.data :=
  (splitDot_shape (entryId_file_shape hx h).1).2

/-- Composing `id ++ "." ++ ext` is injective for dot-free identifiers. -/
theorem append_dot_inj {f g e eg : String} (hf : '.' ∉ f.data)
    (hg : '.' ∉ g.data) (h : f ++ "." ++ e = g ++ "." ++ eg) :
    f = g ∧ e = eg := by
  have h1 := splitDot_compose (e := e) hf
  rw [h, splitDot_compose hg] at h1
  simp only [Option.some.injEq, Prod.mk.injEq] at h1
  exact ⟨h1.1.symm, h1.2.symm⟩

/-- A dot-free identifier differs from its composed file name. -/
theorem ne_append_dot (f e : String) : f ≠ f ++ "." ++ e := by
  intro h
  have hlen : f.data.length = (f ++ "." ++ e).data.length := by rw [← h]
  rw [String.data_append, String.data_append] at hlen
  simp only [List.length_append] at hlen
  have hdot : (".".data : List Char).length = 1 := rfl
  rw [hdot] at hlen
  omega

/-- The entry `find?` locates under the target name is kept under exactly
the processed identifier, and filtering the name away removes exactly
one occurrence of that identifier from the kept list. -/
theorem kept_remove_perm {folders : Bool} {e f : String} {l : List Entry}
    {ent : Entry} (hwf : wfDir l)
    (hmem : f ∈ keptIds folders e l)
    (hfind : l.find? (fun x => x.name == targetName folders f e) = some ent) :
    entryId folders e ent = some f ∧
    (keptIds folders e l).Perm
      (f :: keptIds folders e
        (l.filter (fun x => x.name ≠ targetName folders f e))) := by
  have hentl : ent ∈ l := List.mem_of_find?_eq_some hfind
  have hentn : ent.name = targetName folders f e := by
    have := List.find?_some hfind
    exact beq_iff_eq.mp this
  obtain ⟨x, hxl, hxid⟩ := List.mem_filterMap.mp (by
    unfold keptIds at hmem
    exact hmem)
  have hix : entryId folders e ent = some f := by
    by_cases hxf : x.isFile = true
    · -- the witness x is a file named f ++ "." ++ e
      obtain ⟨hsd, hdate⟩ := entryId_file_shape hxf hxid
      obtain ⟨hxn, hfree⟩ := splitDot_shape hsd
      by_cases hfol : folders = true
      · -- folder mode: the target name is the bare identifier `f`; the
        -- located entry must be a directory (a file named `f` would be a
        -- dot-free file name, impossible in a well-formed listing), and
        -- it is kept because `f`'s date resolves.
        have htn : targetName folders f e = f := by
          unfold targetName
          rw [hfol, if_pos rfl]
        by_cases hef : ent.isFile = true
        · exfalso
          have hdot := hwf.2 ent hentl hef
          rw [hentn, htn] at hdot
          unfold hasDot at hdot
          rw [decide_eq_true_eq] at hdot
          exact hfree hdot
        · have hef' : ent.isFile = false := by
            cases hh : ent.isFile
            · rfl
            · exact absurd hh hef
          rw [entryId_dir_eq hef', hentn, htn]
          rw [if_pos (by rw [hfol, hdate]; rfl)]
      · have hfol' : folders = false := by
          cases hh : folders
          · rfl
          · exact absurd hh hfol
        have htn : targetName folders f e = f ++ "." ++ e := by
          unfold targetName
          rw [hfol', if_neg (by simp)]
        have hxent : x = ent := by
          apply List.inj_on_of_nodup_map hwf.1 hxl hentl
          rw [hxn, hentn, htn]
        rw [← hxent, hxid]
    · -- the witness x is a directory: its name is the identifier itself
      have hxf' : x.isFile = false := by
        cases hh : x.isFile
        · rfl
        · exact absurd hh hxf
      obtain ⟨hfol, hxn, hdate⟩ := entryId_dir_shape hxf' hxid
      have htn : targetName folders f e = f := by
        unfold targetName
        rw [hfol, if_pos rfl]
      have hxent : x = ent := by
        apply List.inj_on_of_nodup_map hwf.1 hxl hentl
        rw [hxn, hentn, htn]
      rw [← hxent, hxid]
  refine ⟨hix, ?_⟩
  have hperm := perm_cons_filter_name hwf.1 hentl
  rw [hentn] at hperm
  have hpf := hperm.filterMap (entryId folders e)
  unfold keptIds
  refine hpf.trans ?_
  rw [List.filterMap_cons, hix]

theorem wfDir_cons {ent : Entry} {l : List Entry}
    (hl : wfDir l) (hne : ∀ x ∈ l, x.name ≠ ent.name)
    (hdot : ent.isFile = true → hasDot ent.name = true) :
    wfDir (ent :: l) := by
  constructor
  · unfold namesOf
    rw [List.map_cons, List.nodup_cons]
    refine ⟨?_, hl.1⟩
    intro hh
    obtain ⟨x, hx, hxn⟩ := List.mem_map.mp hh
    exact hne x hx hxn
  · intro x hx hf
    rcases List.mem_cons.mp hx with hx | hx
    · exact hx ▸ hdot (hx ▸ hf)
    · exact hl.2 x hx hf

/-- What a successful real-mode `delete` does: it removes exactly the
processed identifier's entry from the one location it touches. -/
theorem delete_effects {S : Shears} {f e : String} {loc : Loc} {fs fs₁ : FS}
    {tr : List PruneAction} (hdr : S.dryrun = false) (hwf : wfFS fs)
    (hmem : f ∈ keptIds S.folders e (fs.loc loc))
    (h : S.delete f e loc fs = some (fs₁, tr)) :
    (keptIds S.folders e (fs.loc loc)).Perm
      (f :: keptIds S.folders e (fs₁.loc loc)) ∧
    tr = [.del loc (targetName S.folders f e)] ∧
    (∀ loc', loc' ≠ loc → fs₁.loc loc' = fs.loc loc') ∧
    (fs₁.loc loc).Sublist (fs.loc loc) ∧
    wfFS fs₁ ∧
    fs₁.loc loc =
      (fs.loc loc).filter (fun x => x.name ≠ targetName S.folders f e) := by
  unfold Shears.delete at h
  rw [hdr] at h
  rw [if_neg (by simp)] at h
  dsimp only at h
  cases hfind : (fs.loc loc).find?
      (fun x => x.name == targetName S.folders f e) with
  | none => rw [hfind] at h; exact absurd h (by simp)
  | some ent =>
    rw [hfind] at h
    dsimp only at h
    split at h
    · simp only [Option.some.injEq, Prod.mk.injEq] at h
      obtain ⟨hfs, htr⟩ := h
      obtain ⟨hix, hperm⟩ := kept_remove_perm (wfFS_loc hwf loc) hmem hfind
      subst hfs
      refine ⟨?_, htr.symm, ?_, ?_, ?_, FS.loc_setLoc_same fs loc _⟩
      · rw [FS.loc_setLoc_same]
        exact hperm
      · intro loc' hne
        exact FS.loc_setLoc_other fs _ hne
      · rw [FS.loc_setLoc_same]
        exact List.filter_sublist _
      · apply wfFS_of_loc
        intro loc'
        by_cases hloc : loc' = loc
        · subst hloc
          rw [FS.loc_setLoc_same]
          exact wfDir_filter _ (wfFS_loc hwf loc')
        · rw [FS.loc_setLoc_other fs _ hloc]
          exact wfFS_loc hwf loc'
    · exact absurd h (by simp)

/-- What a successful real-mode `move` does: it removes exactly the
processed identifier's entry from the source level and adds it to the
target level, leaving every other directory unchanged. -/
theorem move_effects {S : Shears} {f e : String} {src tgt : Level}
    {fs fs₁ : FS} {tr : List PruneAction} (hdr : S.dryrun = false)
    (hst : tgt ≠ src) (hwf : wfFS fs)
    (hmem : f ∈ keptIds S.folders e (fs.dir src))
    (h : S.move f e src tgt fs = some (fs₁, tr)) :
    (keptIds S.folders e (fs.dir src)).Perm
      (f :: keptIds S.folders e (fs₁.dir src)) ∧
    tr = [.move src f tgt] ∧
    (∀ lv : Level, lv ≠ src → lv ≠ tgt → fs₁.dir lv = fs.dir lv) ∧
    fs₁.root = fs.root ∧
    (fs₁.dir src).Sublist (fs.dir src) ∧
    wfFS fs₁ := by
  unfold Shears.move at h
  rw [hdr] at h
  rw [if_neg (by simp)] at h
  dsimp only at h
  cases hfind : (fs.dir src).find?
      (fun x => x.name == targetName S.folders f e) with
  | none => rw [hfind] at h; exact absurd h (by simp)
  | some ent =>
    rw [hfind] at h
    dsimp only at h
    obtain ⟨hix, hperm⟩ := kept_remove_perm (wfFS_loc hwf (.level src)) hmem hfind
    have hentl : ent ∈ fs.dir src := List.mem_of_find?_eq_some hfind
    have hentn : ent.name = targetName S.folders f e := by
      have := List.find?_some hfind
      exact beq_iff_eq.mp this
    have hdst : (fs.setDir src ((fs.dir src).filter
        (fun x => x.name ≠ targetName S.folders f e))).dir tgt = fs.dir tgt :=
      FS.dir_setDir_other fs _ hst
    have hentdot : ent.isFile = true → hasDot ent.name = true :=
      (wfFS_loc hwf (.level src)).2 ent hentl
    -- common facts for both destination branches
    have hsrc1 : ∀ dl : List Entry,
        ((fs.setDir src ((fs.dir src).filter
          (fun x => x.name ≠ targetName S.folders f e))).setDir tgt dl).dir src =
          (fs.dir src).filter (fun x => x.name ≠ targetName S.folders f e) := by
      intro dl
      rw [FS.dir_setDir_other _ _ (fun hh => hst hh.symm), FS.dir_setDir_same]
    have hoth : ∀ (dl : List Entry) (lv : Level), lv ≠ src → lv ≠ tgt →
        ((fs.setDir src ((fs.dir src).filter
          (fun x => x.name ≠ targetName S.folders f e))).setDir tgt dl).dir lv =
          fs.dir lv := by
      intro dl lv h1 h2
      rw [FS.dir_setDir_other _ _ h2, FS.dir_setDir_other _ _ h1]
    have hroot : ∀ dl : List Entry,
        ((fs.setDir src ((fs.dir src).filter
          (fun x => x.name ≠ targetName S.folders f e))).setDir tgt dl).root =
          fs.root := by
      intro dl
      rw [FS.root_setDir, FS.root_setDir]
    cases hfind2 : ((fs.setDir src ((fs.dir src).filter
        (fun x => x.name ≠ targetName S.folders f e))).dir tgt).find?
        (fun x => x.name == targetName S.folders f e) with
    | none =>
      rw [hfind2] at h
      simp only [Option.some.injEq, Prod.mk.injEq] at h
      obtain ⟨hfs, htr⟩ := h
      subst hfs
      refine ⟨?_, htr.symm, ?_, hroot _, ?_, ?_⟩
      · rw [hsrc1]
        exact hperm
      · intro lv h1 h2
        exact hoth _ lv h1 h2
      · rw [hsrc1]
        exact List.filter_sublist _
      · apply wfFS_of_loc
        intro loc'
        match loc' with
        | .root =>
          rw [FS.loc_root, hroot]
          exact hwf.1
        | .level lv =>
          rw [FS.loc_level]
          by_cases h1 : lv = tgt
          · subst h1
            rw [FS.dir_setDir_same]
            simp only [hdst] at hfind2 ⊢
            refine wfDir_cons (wfFS_loc hwf (.level lv)) ?_ ?_
            · intro x hx
              have hnone := List.find?_eq_none.mp hfind2 x hx
              rw [hentn]
              intro hh
              exact hnone (beq_iff_eq.mpr hh)
            · exact hentdot
          · by_cases h2 : lv = src
            · subst h2
              rw [hsrc1]
              exact wfDir_filter _ (wfFS_loc hwf (.level lv))
            · rw [hoth _ lv h2 h1]
              exact wfFS_loc hwf (.level lv)
    | some dent =>
      rw [hfind2] at h
      dsimp only at h
      split at h
      · simp only [Option.some.injEq, Prod.mk.injEq] at h
        obtain ⟨hfs, htr⟩ := h
        subst hfs
        refine ⟨?_, htr.symm, ?_, hroot _, ?_, ?_⟩
        · rw [hsrc1]
          exact hperm
        · intro lv h1 h2
          exact hoth _ lv h1 h2
        · rw [hsrc1]
          exact List.filter_sublist _
        · apply wfFS_of_loc
          intro loc'
          match loc' with
          | .root =>
            rw [FS.loc_root, hroot]
            exact hwf.1
          | .level lv =>
            rw [FS.loc_level]
            by_cases h1 : lv = tgt
            · subst h1
              rw [FS.dir_setDir_same]
              rw [hdst] at hfind2 ⊢
              refine wfDir_cons (wfDir_filter _ (wfFS_loc hwf (.level lv))) ?_ ?_
              · intro x hx
                have hxmem := List.mem_of_mem_filter hx
                have hxkeep := List.of_mem_filter hx
                rw [hentn]
                simp only [ne_eq, decide_not, Bool.not_eq_true',
                  decide_eq_false_iff_not] at hxkeep
                exact hxkeep
              · exact hentdot
            · by_cases h2 : lv = src
              · subst h2
                rw [hsrc1]
                exact wfDir_filter _ (wfFS_loc hwf (.level lv))
              · rw [hoth _ lv h2 h1]
                exact wfFS_loc hwf (.level lv)
      · exact absurd h (by simp)

/-- Effect of processing one overflow candidate: one occurrence of its
identifier leaves the current level, only levels in the searched suffix
can gain entries, and well-formedness is preserved. -/
theorem processCandidate_effects {S : Shears} {e : String} {level : Level}
    {f : String} (hdr : S.dryrun = false) :
    ∀ {suffix : List Level} {fs fs₁ : FS} {tr : List PruneAction},
      level ∉ suffix → wfFS fs →
      f ∈ keptIds S.folders e (fs.dir level) →
      processCandidate S e level f fs suffix = some (fs₁, tr) →
      (keptIds S.folders e (fs.dir level)).Perm
        (f :: keptIds S.folders e (fs₁.dir level)) ∧
      (∀ lv : Level, lv ≠ level → lv ∉ suffix → fs₁.dir lv = fs.dir lv) ∧
      fs₁.root = fs.root ∧
      (fs₁.dir level).Sublist (fs.dir level) ∧ wfFS fs₁
  | [], fs, fs₁, tr, _, hwf, hmem, h => by
    obtain ⟨hperm, htr, hfr, hsub, hwf1, -⟩ := delete_effects hdr hwf hmem h
    refine ⟨hperm, ?_, ?_, hsub, hwf1⟩
    · intro lv h1 _
      exact hfr (.level lv) (fun hh => h1 (by injection hh))
    · exact hfr .root (fun hh => Loc.noConfusion hh)
  | t :: rest, fs, fs₁, tr, hsfx, hwf, hmem, h => by
    unfold processCandidate at h
    cases hie : is_end_of t f with
    | none => rw [hie] at h; exact absurd h (by simp)
    | some b =>
      rw [hie] at h
      cases b with
      | true =>
        have hst : t ≠ level := fun hh => hsfx (hh ▸ List.mem_cons_self t rest)
        obtain ⟨hperm, htr, hframe, hroot, hsub, hwf1⟩ :=
          move_effects hdr hst hwf hmem h
        refine ⟨hperm, ?_, hroot, hsub, hwf1⟩
        intro lv h1 h2
        exact hframe lv h1 (fun hh => h2 (hh ▸ List.mem_cons_self t rest))
      | false =>
        have hsfx' : level ∉ rest := fun hh => hsfx (List.mem_cons_of_mem t hh)
        obtain ⟨hperm, hframe, hroot, hsub, hwf1⟩ :=
          processCandidate_effects hdr hsfx' hwf hmem h
        refine ⟨hperm, ?_, hroot, hsub, hwf1⟩
        intro lv h1 h2
        exact hframe lv h1 (fun hh => h2 (List.mem_cons_of_mem t hh))

/-- Effect of the whole removal loop: the processed identifiers leave the
level one occurrence each, so what remains is (up to permutation) the
untouched remainder of the scan. -/
theorem processCandidates_effects {S : Shears} {e : String} {level : Level}
    {suffix : List Level} (hdr : S.dryrun = false) (hsfx : level ∉ suffix) :
    ∀ {ids rest : List String} {fs fs₁ : FS} {tr : List PruneAction},
      wfFS fs →
      (keptIds S.folders e (fs.dir level)).Perm (ids ++ rest) →
      processCandidates S e level suffix ids fs = some (fs₁, tr) →
      (keptIds S.folders e (fs₁.dir level)).Perm rest ∧
      (∀ lv : Level, lv ≠ level → lv ∉ suffix → fs₁.dir lv = fs.dir lv) ∧
      fs₁.root = fs.root ∧
      (fs₁.dir level).Sublist (fs.dir level) ∧ wfFS fs₁
  | [], rest, fs, fs₁, tr, hwf, hperm, h => by
    unfold processCandidates at h
    simp only [Option.some.injEq, Prod.mk.injEq] at h
    rw [← h.1]
    exact ⟨by simpa using hperm, fun lv _ _ => rfl, rfl, List.Sublist.refl _, hwf⟩
  | f :: ids, rest, fs, fs₁, tr, hwf, hperm, h => by
    unfold processCandidates at h
    cases h1 : processCandidate S e level f fs suffix with
    | none => rw [h1] at h; exact absurd h (by simp)
    | some p1 =>
      obtain ⟨fsa, tra⟩ := p1
      rw [h1] at h
      dsimp only at h
      cases h2 : processCandidates S e level suffix ids fsa with
      | none => rw [h2] at h; exact absurd h (by simp)
      | some p2 =>
        obtain ⟨fsb, trb⟩ := p2
        rw [h2] at h
        simp only [Option.some.injEq, Prod.mk.injEq] at h
        have hmem : f ∈ keptIds S.folders e (fs.dir level) :=
          hperm.mem_iff.mpr (by simp)
        obtain ⟨hperm1, hframe1, hroot1, hsub1, hwf1⟩ :=
          processCandidate_effects hdr hsfx hwf hmem h1
        have hperm2 : (keptIds S.folders e (fsa.dir level)).Perm (ids ++ rest) := by
          have := hperm1.symm.trans hperm
          rw [List.cons_append] at this
          exact this.cons_inv
        obtain ⟨hperm3, hframe2, hroot2, hsub2, hwf2⟩ :=
          processCandidates_effects hdr hsfx hwf1 hperm2 h2
        rw [← h.1]
        refine ⟨hperm3, ?_, hroot2.trans hroot1, hsub2.trans hsub1, hwf2⟩
        intro lv ha hb
        exact (hframe2 lv ha hb).trans (hframe1 lv ha hb)

/-- Effect of `prune_level`: afterwards the level holds at most its limit
of valid identifiers for the pruned extension, only strictly later levels
gained entries, and the level itself only lost entries. -/
theorem prune_level_effects {S : Shears} {e : String} {level : Level}
    {fs fs₁ : FS} {tr : List PruneAction} (hdr : S.dryrun = false)
    (hwf : wfFS fs) (h : prune_level S e level fs = some (fs₁, tr)) :
    (keptIds S.folders e (fs₁.dir level)).length ≤ S.backup_levels level ∧
    (∀ lv : Level, lv ≠ level → lv ∉ levelsAfter level →
      fs₁.dir lv = fs.dir lv) ∧
    fs₁.root = fs.root ∧
    (fs₁.dir level).Sublist (fs.dir level) ∧ wfFS fs₁ := by
  unfold prune_level at h
  cases hgd : get_directory_files S.folders e (fs.dir level) with
  | none => rw [hgd] at h; exact absurd h (by simp)
  | some files =>
    rw [hgd] at h
    have hfiles := get_directory_files_eq hgd
    have hsfx : level ∉ levelsAfter level := by cases level <;> decide
    have hperm0 : (keptIds S.folders e (fs.dir level)).Perm
        (overflowCandidates files (S.backup_levels level) ++
         files.drop (files.length - S.backup_levels level)) := by
      have h1 := (sortStrings_perm (keptIds S.folders e (fs.dir level))).symm
      rw [← hfiles] at h1
      unfold overflowCandidates
      rw [List.take_append_drop]
      exact h1
    obtain ⟨hperm, hframe, hroot, hsub, hwf1⟩ :=
      processCandidates_effects hdr hsfx hwf hperm0 h
    refine ⟨?_, hframe, hroot, hsub, hwf1⟩
    rw [hperm.length_eq, List.length_drop]
    omega

/-- Effect of the inner extension loop at one level. -/
theorem pruneLevelExts_effects {S : Shears} {level : Level}
    (hdr : S.dryrun = false) :
    ∀ {exts : List String} {fs fs₁ : FS} {tr : List PruneAction}, wfFS fs →
      pruneLevelExts S level exts fs = some (fs₁, tr) →
      (∀ e ∈ exts, (keptIds S.folders e (fs₁.dir level)).length ≤
        S.backup_levels level) ∧
      (∀ lv : Level, lv ≠ level → lv ∉ levelsAfter level →
        fs₁.dir lv = fs.dir lv) ∧
      fs₁.root = fs.root ∧
      (fs₁.dir level).Sublist (fs.dir level) ∧ wfFS fs₁
  | [], fs, fs₁, tr, hwf, h => by
    unfold pruneLevelExts at h
    simp only [Option.some.injEq, Prod.mk.injEq] at h
    rw [← h.1]
    exact ⟨by simp, fun lv _ _ => rfl, rfl, List.Sublist.refl _, hwf⟩
  | e :: rest, fs, fs₁, tr, hwf, h => by
    unfold pruneLevelExts at h
    cases h1 : prune_level S e level fs with
    | none => rw [h1] at h; exact absurd h (by simp)
    | some p1 =>
      obtain ⟨fsa, tra⟩ := p1
      rw [h1] at h
      dsimp only at h
      cases h2 : pruneLevelExts S level rest fsa with
      | none => rw [h2] at h; exact absurd h (by simp)
      | some p2 =>
        obtain ⟨fsb, trb⟩ := p2
        rw [h2] at h
        simp only [Option.some.injEq, Prod.mk.injEq] at h
        obtain ⟨hbound1, hframe1, hroot1, hsub1, hwf1⟩ :=
          prune_level_effects hdr hwf h1
        obtain ⟨hbound2, hframe2, hroot2, hsub2, hwf2⟩ :=
          pruneLevelExts_effects hdr hwf1 h2
        rw [← h.1]
        refine ⟨?_, ?_, hroot2.trans hroot1, hsub2.trans hsub1, hwf2⟩
        · intro e' he'
          rcases List.mem_cons.mp he' with he' | he'
          · subst he'
            have hle := (hsub2.filterMap (entryId S.folders e')).length_le
            exact hle.trans hbound1
          · exact hbound2 e' he'
        · intro lv ha hb
          exact (hframe2 lv ha hb).trans (hframe1 lv ha hb)

/-- Effect of the outer level loop, for a level list in forward order:
every processed (level, extension) pair ends within its capacity, and a
directory no processed level could reach is untouched. -/
theorem pruneLevels_effects {S : Shears} (hdr : S.dryrun = false) :
    ∀ {ls : List Level} {fs fs₁ : FS} {tr : List PruneAction}, wfFS fs →
      ls.Pairwise (fun a b => a ≠ b ∧ a ∉ levelsAfter b) →
      pruneLevels S ls fs = some (fs₁, tr) →
      (∀ L ∈ ls, ∀ e ∈ S.file_extensions,
        (keptIds S.folders e (fs₁.dir L)).length ≤ S.backup_levels L) ∧
      (∀ lv : Level, (∀ L ∈ ls, lv ≠ L ∧ lv ∉ levelsAfter L) →
        fs₁.dir lv = fs.dir lv) ∧
      fs₁.root = fs.root ∧ wfFS fs₁
  | [], fs, fs₁, tr, hwf, _, h => by
    unfold pruneLevels at h
    simp only [Option.some.injEq, Prod.mk.injEq] at h
    rw [← h.1]
    exact ⟨by simp, fun lv _ => rfl, rfl, hwf⟩
  | L :: rest, fs, fs₁, tr, hwf, hpw, h => by
    unfold pruneLevels at h
    cases h1 : pruneLevelExts S L S.file_extensions fs with
    | none => rw [h1] at h; exact absurd h (by simp)
    | some p1 =>
      obtain ⟨fsa, tra⟩ := p1
      rw [h1] at h
      dsimp only at h
      cases h2 : pruneLevels S rest fsa with
      | none => rw [h2] at h; exact absurd h (by simp)
      | some p2 =>
        obtain ⟨fsb, trb⟩ := p2
        rw [h2] at h
        simp only [Option.some.injEq, Prod.mk.injEq] at h
        rw [List.pairwise_cons] at hpw
        obtain ⟨hbound1, hframe1, hroot1, hsub1, hwf1⟩ :=
          pruneLevelExts_effects hdr hwf h1
        obtain ⟨hbound2, hframe2, hroot2, hwf2⟩ :=
          pruneLevels_effects hdr hwf1 hpw.2 h2
        rw [← h.1]
        refine ⟨?_, ?_, hroot2.trans hroot1, hwf2⟩
        · intro L' hL' e he
          rcases List.mem_cons.mp hL' with hL' | hL'
          · subst hL'
            have hfix : fsb.dir L' = fsa.dir L' :=
              hframe2 L' (fun b hb => hpw.1 b hb)
            rw [hfix]
            exact hbound1 e he
          · exact hbound2 L' hL' e he
        · intro lv hcond
          have ha := hcond L (List.mem_cons_self L rest)
          have hb : ∀ L' ∈ rest, lv ≠ L' ∧ lv ∉ levelsAfter L' :=
            fun L' hL' => hcond L' (List.mem_cons_of_mem L hL')
          exact (hframe2 lv hb).trans (hframe1 lv ha.1 ha.2)

/-- C2 (amended): after a successful non-dry-run tiered prune of a
well-formed tree, every tier holds at most its capacity of valid
artifacts *per requested extension* — promotions into a tier all land
before that tier is scanned, because tiers are processed in forward
order and promotion only moves forward. -/
theorem capacity_bound_per_extension (S : Shears) (fs fs₁ : FS)
    (tr : List PruneAction) (hlim : S.limit = none) (hdr : S.dryrun = false)
    (hwf : wfFS fs) (h : S.prune fs = some (fs₁, tr))
    (L : Level) (e : String) (he : e ∈ S.file_extensions) :
    (keptIds S.folders e (fs₁.dir L)).length ≤ S.backup_levels L := by
  unfold Shears.prune at h
  rw [hlim] at h
  have heff := pruneLevels_effects hdr hwf (by decide) h
  exact heff.1 L (by cases L <;> decide) e he

theorem capacity_bound_per_extension_witness :
    (keptIds exShearsDaily1.folders "bak"
      ((⟨[], [⟨"2018-01-02.bak", true⟩], [], [], []⟩ : FS).dir .daily)).length ≤
      exShearsDaily1.backup_levels .daily :=
  capacity_bound_per_extension exShearsDaily1 exFSdaily2
    ⟨[], [⟨"2018-01-02.bak", true⟩], [], [], []⟩
    [.del (.level .daily) "2018-01-01.bak"]
    (by decide) (by decide) (by decide) (by decide) .daily "bak" (by decide)

/-- C3 (amended): a capacity-0 tier stays in the sequence and is scanned
with limit 0, so after a successful non-dry-run tiered run it holds no
valid artifact of any requested extension (each was promoted to the
first matching later tier or deleted); and with every capacity 0, no
flat limit and all tier directories empty, the run completes with zero
actions. -/
theorem zero_capacity_tier_emptied :
    (∀ (S : Shears) (fs fs₁ : FS) (tr : List PruneAction) (L : Level)
      (e : String), S.limit = none → S.dryrun = false → wfFS fs →
      S.prune fs = some (fs₁, tr) → e ∈ S.file_extensions →
      S.backup_levels L = 0 →
      keptIds S.folders e (fs₁.dir L) = []) ∧
    c3Shears.prune emptyFS = some (emptyFS, []) := by
  constructor
  · intro S fs fs₁ tr L e hlim hdr hwf h he hcap
    unfold Shears.prune at h
    rw [hlim] at h
    have heff := pruneLevels_effects hdr hwf (by decide) h
    have hb := heff.1 L (by cases L <;> decide) e he
    rw [hcap, Nat.le_zero] at hb
    exact List.eq_nil_of_length_eq_zero hb
  · decide

theorem zero_capacity_tier_emptied_witness :
    keptIds c3Shears.folders "bak" (emptyFS.dir .daily) = [] :=
  zero_capacity_tier_emptied.1 c3Shears c3FS emptyFS
    [.del (.level .daily) "2018-01-01.bak"] .daily "bak"
    (by decide) (by decide) (by decide) (by decide) (by decide) (by decide)

/-- In file mode a kept identifier is always the dot-free part before the
first dot of a file name. -/
theorem kept_no_dot_file_mode {e f : String} {l : List Entry}
    (hmem : f ∈ keptIds false e l) : '.' ∉ f.data := by
  unfold keptIds at hmem
  obtain ⟨x, hx, hid⟩ := List.mem_filterMap.mp hmem
  by_cases hxf : x.isFile = true
  · exact keptId_file_no_dot hxf hid
  · have hxf' : x.isFile = false := by
      cases hh : x.isFile
      · rfl
      · exact absurd hh hxf
    obtain ⟨hfol, -, -⟩ := entryId_dir_shape hxf' hid
    exact absurd hfol (by simp)

/-- Removing one extension's artifact (file mode) does not change the
kept identifiers of a different extension. -/
theorem keptIds_filter_other {e ef f : String} {l : List Entry}
    (hfree : '.' ∉ f.data) (hne : ef ≠ e) :
    keptIds false ef
        (l.filter (fun x => x.name ≠ targetName false f e)) =
      keptIds false ef l := by
  induction l with
  | nil => rfl
  | cons x rest ih =>
    unfold keptIds at ih
    by_cases hx : x.name = targetName false f e
    · rw [List.filter_cons_of_neg (by simp [hx])]
      have hxid : entryId false ef x = none := by
        by_cases hxf : x.isFile = true
        · have htn : targetName false f e = f ++ "." ++ e := by
            unfold targetName
            rw [if_neg (by simp)]
          have hsd : splitDot x.name = some (f, e) := by
            rw [hx, htn]
            exact splitDot_compose hfree
          rw [entryId_file_eq hxf hsd]
          rw [if_neg (by
            simp only [Bool.and_eq_true, decide_eq_true_eq]
            rintro ⟨hh, -⟩
            exact hne hh.symm)]
        · have hxf' : x.isFile = false := by
            cases hh : x.isFile
            · rfl
            · exact absurd hh hxf
          rw [entryId_dir_eq hxf']
          rw [if_neg (by simp)]
      unfold keptIds
      rw [List.filterMap_cons, hxid]
      exact ih
    · rw [List.filter_cons_of_pos (by simp [hx])]
      unfold keptIds
      rw [List.filterMap_cons, List.filterMap_cons]
      cases entryId false ef x with
      | none =>
        dsimp only
        exact ih
      | some g =>
        dsimp only
        rw [ih]

/-- Effect of the flat deletion loop: the processed identifiers leave the
root one occurrence each; other extensions' artifacts and every tier
directory are untouched; the trace is deletions at the root only. -/
theorem deleteAll_effects {S : Shears} {e : String} (hdr : S.dryrun = false)
    (hfm : S.folders = false) :
    ∀ {ids rest : List String} {fs fs₁ : FS} {tr : List PruneAction},
      wfFS fs →
      (keptIds S.folders e fs.root).Perm (ids ++ rest) →
      deleteAll S e ids fs = some (fs₁, tr) →
      (keptIds S.folders e fs₁.root).Perm rest ∧
      (∀ ef, ef ≠ e →
        keptIds S.folders ef fs₁.root = keptIds S.folders ef fs.root) ∧
      (∀ lv : Level, fs₁.dir lv = fs.dir lv) ∧
      (∀ a ∈ tr, ∃ g, a = PruneAction.del .root g) ∧ wfFS fs₁
  | [], rest, fs, fs₁, tr, hwf, hperm, h => by
    unfold deleteAll at h
    simp only [Option.some.injEq, Prod.mk.injEq] at h
    rw [← h.1, ← h.2]
    exact ⟨by simpa using hperm, fun ef _ => rfl, fun lv => rfl,
      by simp, hwf⟩
  | f :: ids, rest, fs, fs₁, tr, hwf, hperm, h => by
    unfold deleteAll at h
    cases h1 : S.delete f e .root fs with
    | none => rw [h1] at h; exact absurd h (by simp)
    | some p1 =>
      obtain ⟨fsa, tra⟩ := p1
      rw [h1] at h
      dsimp only at h
      cases h2 : deleteAll S e ids fsa with
      | none => rw [h2] at h; exact absurd h (by simp)
      | some p2 =>
        obtain ⟨fsb, trb⟩ := p2
        rw [h2] at h
        simp only [Option.some.injEq, Prod.mk.injEq] at h
        have hmem : f ∈ keptIds S.folders e fs.root :=
          hperm.mem_iff.mpr (by simp)
        obtain ⟨hperm1, htr1, hfr1, hsub1, hwf1, hfilter1⟩ :=
          delete_effects hdr hwf hmem h1
        have hperm2 : (keptIds S.folders e fsa.root).Perm (ids ++ rest) := by
          have hh := hperm1.symm.trans hperm
          rw [List.cons_append] at hh
          exact hh.cons_inv
        obtain ⟨hperm3, hpre2, hdir2, htrace2, hwf2⟩ :=
          deleteAll_effects hdr hfm hwf1 hperm2 h2
        rw [← h.1, ← h.2]
        have hfreef : '.' ∉ f.data := by
          rw [hfm] at hmem
          exact kept_no_dot_file_mode hmem
        refine ⟨hperm3, ?_, ?_, ?_, hwf2⟩
        · intro ef hef
          rw [hpre2 ef hef]
          show keptIds S.folders ef fsa.root = keptIds S.folders ef fs.root
          have hra : fsa.root = fs.root.filter
              (fun x => x.name ≠ targetName S.folders f e) := hfilter1
          rw [hra, hfm]
          exact keptIds_filter_other hfreef hef
        · intro lv
          rw [hdir2 lv]
          exact hfr1 (.level lv) (fun hh => Loc.noConfusion hh)
        · intro a ha
          rcases List.mem_append.mp ha with ha | ha
          · rw [htr1] at ha
            rcases List.mem_singleton.mp ha with rfl
            exact ⟨targetName S.folders f e, rfl⟩
          · exact htrace2 a ha

/-- Effect of `prune_limit`: the root keeps the last `limit` entries of
the ascending scan for the pruned extension, other extensions' artifacts
and all tier directories are untouched, and only root deletions are
reported. -/
theorem prune_limit_effects {S : Shears} {e : String} {k : Nat}
    {fs fs₁ : FS} {tr : List PruneAction} (hdr : S.dryrun = false)
    (hfm : S.folders = false) (hwf : wfFS fs)
    (h : prune_limit S e k fs = some (fs₁, tr)) :
    (keptIds S.folders e fs₁.root).Perm
      ((sortStrings (keptIds S.folders e fs.root)).drop
        ((keptIds S.folders e fs.root).length - k)) ∧
    (∀ ef, ef ≠ e →
      keptIds S.folders ef fs₁.root = keptIds S.folders ef fs.root) ∧
    (∀ lv : Level, fs₁.dir lv = fs.dir lv) ∧
    (∀ a ∈ tr, ∃ g, a = PruneAction.del .root g) ∧ wfFS fs₁ := by
  unfold prune_limit at h
  cases hgd : get_directory_files S.folders e fs.root with
  | none => rw [hgd] at h; exact absurd h (by simp)
  | some files =>
    rw [hgd] at h
    have hfiles := get_directory_files_eq hgd
    have hlen : files.length = (keptIds S.folders e fs.root).length := by
      rw [hfiles]
      exact (sortStrings_perm _).length_eq
    have hperm0 : (keptIds S.folders e fs.root).Perm
        (overflowCandidates files k ++ files.drop (files.length - k)) := by
      have h1 := (sortStrings_perm (keptIds S.folders e fs.root)).symm
      rw [← hfiles] at h1
      unfold overflowCandidates
      rw [List.take_append_drop]
      exact h1
    obtain ⟨hperm, hpre, hdir, htrace, hwf1⟩ :=
      deleteAll_effects hdr hfm hwf hperm0 h
    refine ⟨?_, hpre, hdir, htrace, hwf1⟩
    rw [← hfiles, ← hlen]
    exact hperm

/-- Effect of the flat extension loop (distinct extensions). -/
theorem pruneLimitExts_effects {S : Shears} {k : Nat}
    (hdr : S.dryrun = false) (hfm : S.folders = false) :
    ∀ {exts : List String} {fs fs₁ : FS} {tr : List PruneAction},
      wfFS fs → exts.Nodup →
      pruneLimitExts S k exts fs = some (fs₁, tr) →
      (∀ e ∈ exts, (keptIds S.folders e fs₁.root).Perm
        ((sortStrings (keptIds S.folders e fs.root)).drop
          ((keptIds S.folders e fs.root).length - k))) ∧
      (∀ ef, ef ∉ exts →
        keptIds S.folders ef fs₁.root = keptIds S.folders ef fs.root) ∧
      (∀ lv : Level, fs₁.dir lv = fs.dir lv) ∧
      (∀ a ∈ tr, ∃ g, a = PruneAction.del .root g) ∧ wfFS fs₁
  | [], fs, fs₁, tr, hwf, _, h => by
    unfold pruneLimitExts at h
    simp only [Option.some.injEq, Prod.mk.injEq] at h
    rw [← h.1, ← h.2]
    exact ⟨by simp, fun ef _ => rfl, fun lv => rfl, by simp, hwf⟩
  | a :: rest, fs, fs₁, tr, hwf, hnd, h => by
    unfold pruneLimitExts at h
    cases h1 : prune_limit S a k fs with
    | none => rw [h1] at h; exact absurd h (by simp)
    | some p1 =>
      obtain ⟨fsa, tra⟩ := p1
      rw [h1] at h
      dsimp only at h
      cases h2 : pruneLimitExts S k rest fsa with
      | none => rw [h2] at h; exact absurd h (by simp)
      | some p2 =>
        obtain ⟨fsb, trb⟩ := p2
        rw [h2] at h
        simp only [Option.some.injEq, Prod.mk.injEq] at h
        rw [List.nodup_cons] at hnd
        obtain ⟨hperm1, hpre1, hdir1, htrace1, hwf1⟩ :=
          prune_limit_effects hdr hfm hwf h1
        obtain ⟨hperm2, hpre2, hdir2, htrace2, hwf2⟩ :=
          pruneLimitExts_effects hdr hfm hwf1 hnd.2 h2
        rw [← h.1, ← h.2]
        refine ⟨?_, ?_, ?_, ?_, hwf2⟩
        · intro e he
          rcases List.mem_cons.mp he with he | he
          · subst he
            rw [hpre2 e hnd.1]
            exact hperm1
          · have hea : e ≠ a := fun hh => hnd.1 (hh ▸ he)
            have hrw := hpre1 e hea
            have := hperm2 e he
            rw [hrw] at this
            exact this
        · intro ef hef
          have hefa : ef ≠ a := fun hh => hef (hh ▸ List.mem_cons_self a rest)
          have hefr : ef ∉ rest := fun hh => hef (List.mem_cons_of_mem a hh)
          rw [hpre2 ef hefr]
          exact hpre1 ef hefa
        · intro lv
          rw [hdir2 lv]
          exact hdir1 lv
        · intro x hx
          rcases List.mem_append.mp hx with hx | hx
          · exact htrace1 x hx
          · exact htrace2 x hx

/-- C8: when a global flat limit is configured the engine never touches
the tier directories and never promotes — the trace is root deletions
only — and per requested extension the backup root keeps exactly the
newest `limit` entries of the ascending scan, deleting the rest. -/
theorem flat_limit_keeps_newest (S : Shears) (fs fs₁ : FS)
    (tr : List PruneAction) (k : Nat) (hlim : S.limit = some k)
    (hdr : S.dryrun = false) (hfm : S.folders = false)
    (hnd : S.file_extensions.Nodup) (hwf : wfFS fs)
    (h : S.prune fs = some (fs₁, tr)) :
    (∀ lv : Level, fs₁.dir lv = fs.dir lv) ∧
    (∀ a ∈ tr, ∃ g, a = PruneAction.del .root g) ∧
    (∀ e ∈ S.file_extensions,
      (keptIds S.folders e fs₁.root).Perm
        ((sortStrings (keptIds S.folders e fs.root)).drop
          ((keptIds S.folders e fs.root).length - k))) := by
  unfold Shears.prune at h
  rw [hlim] at h
  obtain ⟨hkeep, -, hdirs, htrace, -⟩ :=
    pruneLimitExts_effects hdr hfm hwf hnd h
  exact ⟨hdirs, htrace, hkeep⟩

theorem flat_limit_keeps_newest_witness :
    (∀ lv : Level,
      ((⟨[⟨"2017-11-19_test_backup.bak", true⟩,
          ⟨"2017-11-20_test_backup.bak", true⟩,
          ⟨"2017-11-21_test_backup.bak", true⟩,
          ⟨"2017-11-22_test_backup.bak", true⟩,
          ⟨"2017-11-23_test_backup.bak", true⟩,
          ⟨"2017-11-24_test_backup.bak", true⟩], [], [], [], []⟩ : FS).dir lv) =
        c8FS.dir lv) ∧
    (∀ a ∈ [PruneAction.del .root "2017-11-15_test_backup.bak",
            .del .root "2017-11-16_test_backup.bak",
            .del .root "2017-11-17_test_backup.bak",
            .del .root "2017-11-18_test_backup.bak"],
      ∃ g, a = PruneAction.del .root g) ∧
    (∀ e ∈ c8Shears.file_extensions,
      (keptIds c8Shears.folders e
        (⟨[⟨"2017-11-19_test_backup.bak", true⟩,
           ⟨"2017-11-20_test_backup.bak", true⟩,
           ⟨"2017-11-21_test_backup.bak", true⟩,
           ⟨"2017-11-22_test_backup.bak", true⟩,
           ⟨"2017-11-23_test_backup.bak", true⟩,
           ⟨"2017-11-24_test_backup.bak", true⟩], [], [], [], []⟩ : FS).root).Perm
        ((sortStrings (keptIds c8Shears.folders e c8FS.root)).drop
          ((keptIds c8Shears.folders e c8FS.root).length - 6))) :=
  flat_limit_keeps_newest c8Shears c8FS
    ⟨[⟨"2017-11-19_test_backup.bak", true⟩,
      ⟨"2017-11-20_test_backup.bak", true⟩,
      ⟨"2017-11-21_test_backup.bak", true⟩,
      ⟨"2017-11-22_test_backup.bak", true⟩,
      ⟨"2017-11-23_test_backup.bak", true⟩,
      ⟨"2017-11-24_test_backup.bak", true⟩], [], [], [], []⟩
    [.del .root "2017-11-15_test_backup.bak",
     .del .root "2017-11-16_test_backup.bak",
     .del .root "2017-11-17_test_backup.bak",
     .del .root "2017-11-18_test_backup.bak"] 6
    (by decide) (by decide) (by decide) (by decide) (by decide) (by decide)
